import Mathlib

/-!
Verification of the ordered hierarchical item stores of the vs-codebench
extension (todos, bookmarks + folders), shallowly embedded from
`src/features/bookmarks/BookmarkService.ts`, `src/features/todos/TodoService.ts`
(`src/unnamed/part_009`), `src/features/todos/TodoValidator.ts` and
`src/features/bookmarks/BookmarkValidator.ts` (`src/unnamed/part_003`).

Modelling conventions:
* ids and file uris are `Nat` (the code uses uuid / uri strings; only
  equality of ids is ever used);
* `createdAt` / `updatedAt` timestamps and bookmark colors are omitted:
  no claim mentions them and no control flow depends on them;
* JavaScript `while` loops over the `parentId` chain and the recursive
  tree walks are modelled with an explicit fuel argument, instantiated
  with `length + 1`; theorems that depend on chain termination carry an
  acyclicity hypothesis (`Ranked`) under which this fuel is sufficient;
* in-place mutation of a found object is modelled by `updateFirst`
  (JavaScript `find` returns the first match and the code mutates it);
* the in-place `sort` + `forEach` order reassignment of a sibling group is
  modelled by `normalizeGroup`, which gives each member of the group the
  index of its id in the order-sorted group (ids are unique in the real
  store, where they are uuids).
-/

namespace VSC

/-- `Bookmark` from `src/features/bookmarks/Models.ts` (timestamps/color omitted). -/
structure Bookmark where
  id : Nat
  fileUri : Nat
  line : Int
  text : String
  order : Nat
  parentId : Option Nat
deriving DecidableEq, Repr, Inhabited

/-- `BookmarkFolder` from `src/features/bookmarks/Models.ts` (timestamps omitted). -/
structure BookmarkFolder where
  id : Nat
  name : String
  order : Nat
  parentId : Option Nat
  isExpanded : Bool
deriving DecidableEq, Repr, Inhabited

/-- The in-memory state of `BookmarkService`: the `bookmarks` and `folders` arrays. -/
structure BState where
  bookmarks : List Bookmark
  folders : List BookmarkFolder
deriving DecidableEq, Repr, Inhabited

/-- `Todo` from `src/features/todos/Models.ts` (timestamps omitted). -/
structure Todo where
  id : Nat
  text : String
  done : Bool
  order : Nat
  parentId : Option Nat
deriving DecidableEq, Repr, Inhabited

/-- Replace the first element satisfying `p` (JavaScript `find` + in-place mutation). -/
def updateFirst (p : α → Bool) (f : α → α) : List α → List α
  | [] => []
  | x :: xs => if p x then f x :: xs else x :: updateFirst p f xs

section Chains

variable {α : Type} (gid : α → Nat) (gpar : α → Option Nat)

/-- First node with the given id (JavaScript `array.find(f => f.id === x)`). -/
def findNode (l : List α) (x : Nat) : Option α :=
  l.find? (fun a => decide (gid a = x))

/-- The parent id of the node with id `x`, if that node exists (`folder?.parentId`). -/
def parentOf (l : List α) (x : Nat) : Option Nat :=
  (findNode gid l x).bind gpar

/-- Fuel-bounded walk up the `parentId` chain looking for `anc`; this is the loop
of `BookmarkService.isDescendantOf`. -/
def chainHits (l : List α) : Nat → Option Nat → Nat → Bool
  | _, none, _ => false
  | 0, some _, _ => false
  | fuel + 1, some c, anc =>
    if c = anc then true else chainHits l fuel (parentOf gid gpar l c) anc

/-- Acyclicity of the parent structure, witnessed by a rank function that
strictly decreases from child to parent and is bounded by the node count. -/
def Ranked (l : List α) (rank : Nat → Nat) : Prop :=
  (∀ a ∈ l, rank (gid a) < l.length) ∧
    (∀ a ∈ l, ∀ p, gpar a = some p → rank p < rank (gid a))

/-- `x` reaches `z` by walking up the parent chain (reference semantics for
`chainHits`, without fuel). -/
inductive Reaches (l : List α) : Nat → Nat → Prop
  | refl (x : Nat) : Reaches l x x
  | step (x y z : Nat) : parentOf gid gpar l x = some y →
      Reaches l y z → Reaches l x z

end Chains

/-- Stable insertion of `x` after all elements with key `≤ key x`. -/
def insertOrdered (key : α → Nat) (x : α) : List α → List α
  | [] => [x]
  | y :: ys => if key y ≤ key x then y :: insertOrdered key x ys else x :: y :: ys

/-- Stable ascending sort by `key`; models the stable JavaScript
`array.sort((a, b) => a.order - b.order)`. -/
def sortOrdered (key : α → Nat) : List α → List α
  | [] => []
  | x :: xs => insertOrdered key x (sortOrdered key xs)

/-- A member of a mixed sibling group: a folder or a bookmark. -/
abbrev Entry := Sum BookmarkFolder Bookmark

/-- The id of a sibling-group member. -/
def Entry.eid : Entry → Nat
  | Sum.inl f => f.id
  | Sum.inr b => b.id

/-- The order of a sibling-group member. -/
def Entry.eorder : Entry → Nat
  | Sum.inl f => f.order
  | Sum.inr b => b.order

/-- `BookmarkService.getFolderSiblings`: folders first, then bookmarks, with the
given parent. -/
def getFolderSiblings (s : BState) (p : Option Nat) : List Entry :=
  (s.folders.filter (fun f => decide (f.parentId = p))).map Sum.inl ++
    (s.bookmarks.filter (fun b => decide (b.parentId = p))).map Sum.inr

/-- Index of `x` in `l` (position of the first occurrence; `l.length` if absent). -/
def idxOf (x : Nat) : List Nat → Nat
  | [] => 0
  | y :: ys => if y = x then 0 else idxOf x ys + 1

/-- The ids of the sibling group of `p`, sorted ascending by current order
(stable, like the JavaScript sort). -/
def normIds (s : BState) (p : Option Nat) : List Nat :=
  (sortOrdered Entry.eorder (getFolderSiblings s p)).map Entry.eid

/-- The `siblings.sort(...); siblings.forEach((item, index) => item.order = index)`
pattern used throughout `BookmarkService`: every member of the sibling group of
`p` gets as its order the index of its id in the order-sorted group. -/
def normalizeGroup (s : BState) (p : Option Nat) : BState :=
  { bookmarks := s.bookmarks.map
      (fun b => if b.parentId = p then { b with order := idxOf b.id (normIds s p) } else b),
    folders := s.folders.map
      (fun f => if f.parentId = p then { f with order := idxOf f.id (normIds s p) } else f) }

/-- `maxOrder + 1` where `maxOrder` is `-1` on an empty group and
`Math.max(...siblings.map(s => s.order))` otherwise. -/
def newOrder (sibs : List Entry) : Nat :=
  match sibs with
  | [] => 0
  | _ => (sibs.map Entry.eorder).foldl max 0 + 1

/-- `BookmarkService.addBookmark`: append a bookmark at the root with order
`max + 1` over the root sibling group. -/
def addBookmark (s : BState) (id fileUri : Nat) (line : Int) (text : String) : BState :=
  let ord := newOrder (getFolderSiblings s none)
  { s with bookmarks := s.bookmarks ++
      [{ id := id, fileUri := fileUri, line := line, text := text.trim,
         order := ord, parentId := none }] }

/-- `BookmarkService.addFolder`: append a folder under `parentId` with order
`max + 1` over that sibling group. -/
def addFolder (s : BState) (id : Nat) (name : String) (parentId : Option Nat) : BState :=
  let ord := newOrder (getFolderSiblings s parentId)
  { s with folders := s.folders ++
      [{ id := id, name := name.trim, order := ord, parentId := parentId,
         isExpanded := true }] }

/-- `BookmarkService.editBookmark`: update the text of the bookmark, if present. -/
def editBookmark (s : BState) (id : Nat) (text : String) : BState :=
  { s with bookmarks := (updateFirst (fun b => decide (b.id = id))
      (fun b => { b with text := text.trim }) s.bookmarks) }

/-- `BookmarkService.editFolder`: update the name of the folder, if present. -/
def editFolder (s : BState) (id : Nat) (name : String) : BState :=
  { s with folders := (updateFirst (fun f => decide (f.id = id))
      (fun f => { f with name := name.trim }) s.folders) }

/-- `BookmarkService.deleteBookmark`: remove the bookmark and normalize its
former parent's sibling group. -/
def deleteBookmark (s : BState) (id : Nat) : BState :=
  match s.bookmarks.find? (fun b => decide (b.id = id)) with
  | none => s
  | some b =>
    let s1 : BState := { s with bookmarks := s.bookmarks.filter (fun x => decide (x.id ≠ id)) }
    normalizeGroup s1 b.parentId

/-- `BookmarkService.deleteFolderRecursive`: drop the folder's bookmarks, recurse
into subfolders (snapshot taken before recursing), then drop the folder itself. -/
def deleteFolderRecursive (fuel : Nat) (folderId : Nat) (s : BState) : BState :=
  match fuel with
  | 0 => s
  | fuel + 1 =>
    let s1 : BState :=
      { s with bookmarks := s.bookmarks.filter (fun b => decide (b.parentId ≠ some folderId)) }
    let subs := (s1.folders.filter (fun f => decide (f.parentId = some folderId))).map
      (fun f => f.id)
    let s2 := subs.foldl (fun st cid => deleteFolderRecursive fuel cid st) s1
    { s2 with folders := s2.folders.filter (fun f => decide (f.id ≠ folderId)) }

/-- `BookmarkService.deleteFolder`: cascade-delete the folder, then normalize its
former parent's sibling group. -/
def deleteFolder (s : BState) (id : Nat) : BState :=
  match s.folders.find? (fun f => decide (f.id = id)) with
  | none => s
  | some f => normalizeGroup (deleteFolderRecursive (s.folders.length + 1) id s) f.parentId

/-- `BookmarkService.getFolderDepth` loop: follow parents while they exist. -/
def depthGo (folders : List BookmarkFolder) : Nat → Nat → Nat → Nat
  | 0, _, acc => acc
  | fuel + 1, cur, acc =>
    match folders.find? (fun f => decide (f.id = cur)) with
    | some f =>
      match f.parentId with
      | some p => depthGo folders fuel p (acc + 1)
      | none => acc
    | none => acc

/-- `BookmarkService.getFolderDepth`: 1 for a root folder. -/
def getFolderDepth (s : BState) (folderId : Nat) : Nat :=
  depthGo s.folders (s.folders.length + 1) folderId 1

/-- `BookmarkService.getMaxFolderDepth`: height of the folder subtree (1 for a
leaf folder). -/
def maxDepthGo (folders : List BookmarkFolder) : Nat → Nat → Nat
  | 0, _ => 1
  | fuel + 1, fid =>
    (folders.filter (fun f => decide (f.parentId = some fid))).foldl
      (fun m sf => max m (maxDepthGo folders fuel sf.id + 1)) 1

/-- `BookmarkService.getMaxFolderDepth` with the standard fuel. -/
def getMaxFolderDepth (s : BState) (folderId : Nat) : Nat :=
  maxDepthGo s.folders (s.folders.length + 1) folderId

/-- `BookmarkService.isDescendantOf`: walk up from `possibleDescendantId`
looking for `ancestorId` (true also when the two are equal). -/
def isDescendantOf (s : BState) (possibleDescendantId ancestorId : Nat) : Bool :=
  chainHits (fun f : BookmarkFolder => f.id) (fun f => f.parentId) s.folders
    (s.folders.length + 1) (some possibleDescendantId) ancestorId

/-- `BookmarkService.countFolderItems`: direct bookmarks plus, per subfolder,
one plus its own count. -/
def countGo (folders : List BookmarkFolder) (bookmarks : List Bookmark) : Nat → Nat → Nat
  | 0, _ => 0
  | fuel + 1, fid =>
    let direct := (bookmarks.filter (fun b => decide (b.parentId = some fid))).length
    (folders.filter (fun f => decide (f.parentId = some fid))).foldl
      (fun acc sf => acc + 1 + countGo folders bookmarks fuel sf.id) direct

/-- `BookmarkService.countFolderItems` with the standard fuel. -/
def countFolderItems (s : BState) (folderId : Nat) : Nat :=
  countGo s.folders s.bookmarks (s.folders.length + 1) folderId

/-- Error message of the folder-cycle guard. -/
def cycleMsg : String := "Cannot move folder into itself or its subfolders"

/-- Error message of the folder-depth guard. -/
def depthMsg : String := "Moving this folder would exceed maximum depth (3 levels)"

/-- Reparent the found item (bookmark or folder) to `target` with order
`max + 1` over the target group, then normalize the old group if the parent
changed; shared shape of the two `moveToFolder` branches. -/
def moveEntryCore (s : BState) (isBookmark : Bool) (itemId : Nat)
    (src target : Option Nat) : BState :=
  let ord := newOrder (getFolderSiblings s target)
  let s1 : BState :=
    if isBookmark then
      { s with bookmarks := (updateFirst (fun b => decide (b.id = itemId))
          (fun b => { b with parentId := target, order := ord }) s.bookmarks) }
    else
      { s with folders := (updateFirst (fun f => decide (f.id = itemId))
          (fun f => { f with parentId := target, order := ord }) s.folders) }
  if src ≠ target then normalizeGroup s1 src else s1

/-- `BookmarkService.moveToFolder`. Returns the thrown error message (if any)
together with the state at the moment of return or throw. -/
def moveToFolder (s : BState) (itemId : Nat) (targetFolderId : Option Nat) :
    Option String × BState :=
  match s.bookmarks.find? (fun b => decide (b.id = itemId)) with
  | some b => (none, moveEntryCore s true itemId b.parentId targetFolderId)
  | none =>
    match s.folders.find? (fun f => decide (f.id = itemId)) with
    | none => (none, s)
    | some f =>
      match targetFolderId with
      | some t =>
        if isDescendantOf s t itemId then (some cycleMsg, s)
        else if getFolderDepth s t + getMaxFolderDepth s itemId > 3 then (some depthMsg, s)
        else (none, moveEntryCore s false itemId f.parentId (some t))
      | none => (none, moveEntryCore s false itemId f.parentId none)

/-- Drop position of a drag-and-drop reorder. -/
inductive DropPos
  | before
  | after
deriving DecidableEq, Repr

/-- JavaScript `array.splice(i, 0, x)`: insert `x` at index `i`, appending when
`i` is past the end. -/
def spliceAt (n : Nat) (x : α) : List α → List α
  | [] => [x]
  | y :: ys => match n with
    | 0 => x :: y :: ys
    | n + 1 => y :: spliceAt n x ys

/-- `items.forEach((item, index) => item.order = index)` over a mixed array. -/
def assignOrdersGo (i : Nat) : List Entry → List Entry
  | [] => []
  | Sum.inl f :: es => Sum.inl { f with order := i } :: assignOrdersGo (i + 1) es
  | Sum.inr b :: es => Sum.inr { b with order := i } :: assignOrdersGo (i + 1) es

/-- Error message when the dragged item cannot be resolved. -/
def draggedNotFoundMsg : String := "Dragged item not found"

/-- Error message when the target item cannot be resolved. -/
def targetNotFoundMsg : String := "Target item not found"

/-- Error message when the target is missing from the rebuilt sibling array. -/
def targetNotInListMsg : String := "Target not found in items list"

/-- `BookmarkService.reorderItem`. Returns the thrown error message (if any)
together with the state at the moment of return or throw. -/
def reorderItem (s : BState) (draggedId targetId : Nat) (pos : DropPos) :
    Option String × BState :=
  let db := s.bookmarks.find? (fun b => decide (b.id = draggedId))
  let df := s.folders.find? (fun f => decide (f.id = draggedId))
  if db.isNone && df.isNone then (some draggedNotFoundMsg, s)
  else
    let tb := s.bookmarks.find? (fun b => decide (b.id = targetId))
    let tf := s.folders.find? (fun f => decide (f.id = targetId))
    if tb.isNone && tf.isNone then (some targetNotFoundMsg, s)
    else
      let sourceParentId := match db, df with
        | some b, _ => b.parentId
        | none, some f => f.parentId
        | none, none => none
      let targetParentId := match tb, tf with
        | some b, _ => b.parentId
        | none, some f => f.parentId
        | none, none => none
      let folderGuard : Option String := match df, targetParentId with
        | some _, some tp =>
          if isDescendantOf s tp draggedId then some cycleMsg
          else if getFolderDepth s tp + getMaxFolderDepth s draggedId > 3 then some depthMsg
          else none
        | _, _ => none
      match folderGuard with
      | some e => (some e, s)
      | none =>
        let dragged : Entry := match db, df with
          | some b, _ => Sum.inr { b with parentId := targetParentId }
          | none, some f => Sum.inl { f with parentId := targetParentId }
          | none, none => Sum.inr default
        let s1 : BState :=
          if db.isSome then
            { s with bookmarks := s.bookmarks.filter (fun b => decide (b.id ≠ draggedId)) }
          else
            { s with folders := s.folders.filter (fun f => decide (f.id ≠ draggedId)) }
        let s2 :=
          if sourceParentId ≠ targetParentId then normalizeGroup s1 sourceParentId else s1
        let allItems := sortOrdered Entry.eorder (getFolderSiblings s2 targetParentId)
        match allItems.findIdx? (fun e => decide (e.eid = targetId)) with
        | none => (some targetNotInListMsg, s2)
        | some targetIndex =>
          let insertIndex := match pos with
            | DropPos.after => targetIndex + 1
            | DropPos.before => targetIndex
          let allItems2 := assignOrdersGo 0 (spliceAt insertIndex dragged allItems)
          (none,
            { bookmarks := (s2.bookmarks.filter (fun b => decide (b.parentId ≠ targetParentId))) ++
                allItems2.filterMap (fun e => match e with | Sum.inr b => some b | _ => none),
              folders := (s2.folders.filter (fun f => decide (f.parentId ≠ targetParentId))) ++
                allItems2.filterMap (fun e => match e with | Sum.inl f => some f | _ => none) })

/-- One bookmark of the per-file snapshot, processed against the current store
(`BookmarkService.handleTextDocumentChange` loop body). Deleted snapshot
entries are skipped: mutating an object that is no longer in the array is
unobservable. -/
def processOne (uri : Nat) (sl el : Int) (startChar : Nat) (delta : Int)
    (st : List Bookmark) (bid : Nat) : List Bookmark :=
  match st.find? (fun x => decide (x.id = bid)) with
  | none => st
  | some b =>
    if b.line > el then
      updateFirst (fun x => decide (x.id = bid)) (fun x => { x with line := x.line + delta }) st
    else if sl ≤ b.line ∧ b.line ≤ el then
      if delta < 0 then st.filter (fun x => decide (x.id ≠ bid)) else st
    else if b.line = sl ∧ delta > 0 ∧ startChar = 0 then
      updateFirst (fun x => decide (x.id = bid)) (fun x => { x with line := x.line + delta }) st
    else if b.line = sl ∧ delta < 0 ∧ startChar = 0 then
      let target := b.line - 1
      if target ≥ 0 then
        match st.find? (fun x => decide (x.fileUri = uri ∧ x.line = target)) with
        | none => updateFirst (fun x => decide (x.id = bid)) (fun x => { x with line := target }) st
        | some _ => st.filter (fun x => decide (x.id ≠ bid))
      else st.filter (fun x => decide (x.id ≠ bid))
    else st

/-- One content-change chunk of `BookmarkService.handleTextDocumentChange`.
`segments` is `change.text.split('\n').length`; the snapshot of the file's
bookmarks is processed highest-index-last (the code iterates the reversed
snapshot array). -/
def applyContentChange (st : List Bookmark) (uri : Nat) (sl el : Int)
    (startChar : Nat) (segments : Nat) : List Bookmark :=
  let snapshot := st.filter (fun b => decide (b.fileUri = uri))
  if snapshot.isEmpty then st
  else
    let delta : Int := (segments : Int) - 1 - (el - sl)
    if delta = 0 then st
    else ((snapshot.reverse).map (fun b => b.id)).foldl
      (processOne uri sl el startChar delta) st

/-- `TodoService.addTodo`: push a todo with `order = todos.length`. -/
def addTodo (todos : List Todo) (id : Nat) (text : String) (parentId : Option Nat) :
    List Todo :=
  todos ++ [{ id := id, text := text.trim, done := false, order := todos.length,
              parentId := parentId }]

/-- `TodoService.toggleTodo`. -/
def toggleTodo (todos : List Todo) (id : Nat) : List Todo :=
  updateFirst (fun t => decide (t.id = id)) (fun t => { t with done := !t.done }) todos

/-- `TodoService.renameTodo`. -/
def renameTodo (todos : List Todo) (id : Nat) (text : String) : List Todo :=
  updateFirst (fun t => decide (t.id = id)) (fun t => { t with text := text.trim }) todos

/-- The `deleteRecursive` closure of `TodoService.deleteTodo`: children are
snapshotted, recursively deleted, then the node itself is filtered out. -/
def deleteTodoGo (fuel : Nat) (todoId : Nat) (todos : List Todo) : List Todo :=
  match fuel with
  | 0 => todos
  | fuel + 1 =>
    let children := (todos.filter (fun t => decide (t.parentId = some todoId))).map
      (fun t => t.id)
    let todos2 := children.foldl (fun acc cid => deleteTodoGo fuel cid acc) todos
    todos2.filter (fun t => decide (t.id ≠ todoId))

/-- `TodoService.deleteTodo` with the standard fuel. -/
def deleteTodo (todos : List Todo) (id : Nat) : List Todo :=
  deleteTodoGo (todos.length + 1) id todos

/-- The `markForDeletion` closure of `TodoService.clearCheckedTodos`: the id
itself plus, recursively, all children ids. -/
def markForDeletion (todos : List Todo) : Nat → Nat → List Nat
  | 0, tid => [tid]
  | fuel + 1, tid =>
    tid :: (todos.filter (fun t => decide (t.parentId = some tid))).foldl
      (fun acc c => acc ++ markForDeletion todos fuel c.id) []

/-- The `toDelete` set of `TodoService.clearCheckedTodos`: every done todo's
subtree, collected over all todos. -/
def collectChecked (todos : List Todo) : List Nat :=
  todos.foldl
    (fun acc t => if t.done then acc ++ markForDeletion todos (todos.length + 1) t.id else acc) []

/-- `TodoService.clearCheckedTodos`: collect every done todo's subtree, then
filter the collected ids out (no-op when nothing is collected). -/
def clearCheckedTodos (todos : List Todo) : List Todo :=
  let toDelete := collectChecked todos
  if toDelete.isEmpty then todos
  else todos.filter (fun t => decide (t.id ∉ toDelete))

namespace TodoValidator

/-- `TodoValidator.validateTotalCount` (`src/features/todos/TodoValidator.ts`). -/
def validateTotalCount (todos : List Todo) : Option String :=
  if todos.length ≥ 100 then some "Total Todo count cannot exceed 100." else none

end TodoValidator

namespace BookmarkValidator

/-- `BookmarkValidator.validateTotalCount` (`src/unnamed/part_003`). -/
def validateTotalCount (bookmarks : List Bookmark) : Option String :=
  if bookmarks.length ≥ 200 then some "Total Bookmark count cannot exceed 200." else none

end BookmarkValidator

/-! ### Spec-side notions: density, the append formula, sibling groups -/

/-- The order values of the sibling group of `p` (folders, then bookmarks). -/
def groupOrders (s : BState) (p : Option Nat) : List Nat :=
  (getFolderSiblings s p).map Entry.eorder

/-- The spec's density invariant for one group: the order values are exactly
`0, 1, ..., k - 1` in some arrangement. -/
def DenseOrders (l : List Nat) : Prop :=
  l.Perm (List.range l.length)

instance (l : List Nat) : Decidable (DenseOrders l) := by
  unfold DenseOrders; infer_instance

/-- The spec's density invariant for the bookmark store: every sibling group
(including the root group) is dense. -/
def DenseState (s : BState) : Prop :=
  ∀ p : Option Nat, DenseOrders (groupOrders s p)

/-- Every parent key under which an item might live. -/
def parentKeys (s : BState) : List (Option Nat) :=
  s.folders.map (fun f => f.parentId) ++ s.bookmarks.map (fun b => b.parentId)

/-- All item ids of the store, folders first (ids are unique in the real store). -/
def allIds (s : BState) : List Nat :=
  s.folders.map (fun f => f.id) ++ s.bookmarks.map (fun b => b.id)

/-- The order assigned by the spec's `append(parent)` rule: max order among the
current siblings of the parent plus one, or 0 if there are none (spec section 4.2). -/
def specAppendOrder (sibs : List Entry) : Nat :=
  match sibs.map Entry.eorder with
  | [] => 0
  | o :: os => os.foldl Nat.max o + 1

/-- The sibling group of a todo parent (todos sharing that `parentId`). -/
def todoSiblings (todos : List Todo) (p : Option Nat) : List Todo :=
  todos.filter (fun t => decide (t.parentId = p))

/-- The ids of the sibling group of `p`. -/
def groupIds (s : BState) (p : Option Nat) : List Nat :=
  (getFolderSiblings s p).map Entry.eid

/-- `x` is `z` or a descendant of `z` in the folder tree (parent-chain reachability). -/
abbrev FReaches (l : List BookmarkFolder) (x z : Nat) : Prop :=
  Reaches (fun f => f.id) (fun f => f.parentId) l x z

/-- Acyclicity witness for the folder tree. -/
abbrev FRanked (l : List BookmarkFolder) (rank : Nat → Nat) : Prop :=
  Ranked (fun f => f.id) (fun f => f.parentId) l rank

/-- `x` is `z` or a descendant of `z` in the todo tree. -/
abbrev TReaches (l : List Todo) (x z : Nat) : Prop :=
  Reaches (fun t => t.id) (fun t => t.parentId) l x z

/-- Acyclicity witness for the todo tree. -/
abbrev TRanked (l : List Todo) (rank : Nat → Nat) : Prop :=
  Ranked (fun t => t.id) (fun t => t.parentId) l rank

/-- The todo is done, or some todo on its `parentId` chain (itself included) is
done. -/
def hasDoneAncestor (todos : List Todo) (t : Todo) : Bool :=
  todos.any (fun d => d.done &&
    chainHits (fun x : Todo => x.id) (fun x => x.parentId) todos (todos.length + 1)
      (some t.id) d.id)

/-- The folder is in the subtree of `fid` (itself included). -/
def folderRemoved (s : BState) (fid : Nat) (f : BookmarkFolder) : Bool :=
  isDescendantOf s f.id fid

/-- The bookmark's parent folder is in the subtree of `fid`. -/
def bookmarkRemoved (s : BState) (fid : Nat) (b : Bookmark) : Bool :=
  match b.parentId with
  | some p => isDescendantOf s p fid
  | none => false

/-- The folder is in the subtree of one of the roots in `cs`. -/
def folderRemovedAny (s : BState) (cs : List Nat) (f : BookmarkFolder) : Bool :=
  cs.any (fun c => isDescendantOf s f.id c)

/-- The bookmark's parent folder is in the subtree of one of the roots in `cs`. -/
def bookmarkRemovedAny (s : BState) (cs : List Nat) (b : Bookmark) : Bool :=
  match b.parentId with
  | some p => cs.any (fun c => isDescendantOf s p c)
  | none => false

/-! ### Concrete fixtures used by counterexamples and witnesses -/

/-- A root bookmark of file 7 with the given id, line and order. -/
def exBookmark (i : Nat) (l : Int) (ord : Nat) : Bookmark :=
  { id := i, fileUri := 7, line := l, text := "b", order := ord, parentId := none }

/-- A todo with the given id, order and parent. -/
def exTodo (i ord : Nat) (p : Option Nat) : Todo :=
  { id := i, text := "t", done := false, order := ord, parentId := p }

/-- A folder with the given id, order and parent. -/
def exFolder (i ord : Nat) (p : Option Nat) : BookmarkFolder :=
  { id := i, name := "f", order := ord, parentId := p, isExpanded := true }

/-- File-7 bookmarks on lines 1, 3 and 5 (the spec's document-edit example). -/
def c3State : List Bookmark := [exBookmark 1 1 0, exBookmark 2 3 1, exBookmark 3 5 2]

/-- A single file-7 bookmark on line 1. -/
def c4State : List Bookmark := [exBookmark 1 1 0]

/-- A store holding exactly one root bookmark. -/
def c9State : BState := { bookmarks := [exBookmark 1 1 0], folders := [] }

/-- Two root bookmarks with dense orders 0, 1. -/
def c1State : BState := { bookmarks := [exBookmark 1 1 0, exBookmark 2 2 1], folders := [] }

/-- A root folder chain 1 ← 2 ← 3 (folder 1 has subtree height 3). -/
def c6State : BState :=
  { bookmarks := [], folders := [exFolder 1 0 none, exFolder 2 0 (some 1), exFolder 3 0 (some 2)] }

/-- Todos 1 <- 2 <- 3 (2 done) plus an unrelated root todo 4. -/
def c10Todos : List Todo :=
  [exTodo 1 0 none, { exTodo 2 1 (some 1) with done := true }, exTodo 3 2 (some 2),
   exTodo 4 3 none]

/-- Folder chain 1 ← 2 ← 3 with a bookmark in folder 2 and one at the root. -/
def c7State : BState :=
  { bookmarks := [exBookmark 10 1 0, { exBookmark 11 2 0 with parentId := some 2 }],
    folders := [exFolder 1 0 none, exFolder 2 0 (some 1), exFolder 3 0 (some 2)] }

/-- A root folder 1 with child folder 2. -/
def c6StateB : BState :=
  { bookmarks := [], folders := [exFolder 1 0 none, exFolder 2 0 (some 1)] }

/-- The parent key of a sibling-group member. -/
def entryPar : Entry → Option Nat
  | Sum.inl f => f.parentId
  | Sum.inr b => b.parentId

/-- A store with two dense sibling groups: folder 1 and bookmark 10 at the root
(orders 0, 1), folder 2 and bookmark 11 inside folder 1 (orders 0, 1). -/
def c1DenseState : BState :=
  { bookmarks := [exBookmark 10 1 1, { exBookmark 11 2 1 with parentId := some 1 }],
    folders := [exFolder 1 0 none, exFolder 2 0 (some 1)] }

/-! ### Claim theorems: document-change reconciler (C3, C4) -/

/-- C3: the claim says a bookmark exactly at `startLine` of a pure-newline
insertion at column 0 (`linesDelta > 0`) is shifted down; in the 1/3/5 example
the bookmark at line 3 should move to 5. The code's branch for that case is
dead: the preceding `startLine ≤ line ≤ endLine` branch (which does nothing for
`linesDelta > 0`) always fires first, so the bookmark at line 3 stays at 3
while the bookmark at 5 moves to 7. -/
theorem claim3_insertion_keeps_bookmark_at_startLine :
    (applyContentChange c3State 7 3 3 0 3).map (fun b => (b.id, b.line))
        = [(1, 1), (2, 3), (3, 7)] ∧
      ¬((applyContentChange c3State 7 3 3 0 3).map (fun b => (b.id, b.line))
        = [(1, 1), (2, 5), (3, 7)]) := by
  decide

/-- C4: the claim says a bookmark at `startLine` of a column-0 deletion merging
the line upward (`linesDelta < 0`) moves to `line - 1` when that line is free.
The code's branch for that case is dead: the `startLine ≤ line ≤ endLine`
branch fires first and deletes the bookmark. Here lines 1-2 collapse by one
line (`delta = -1`), line 0 carries no bookmark, yet the bookmark is deleted
rather than moved to line 0. -/
theorem claim4_merge_deletes_bookmark_at_startLine :
    applyContentChange c4State 7 1 2 0 1 = [] ∧
      ¬(applyContentChange c4State 7 1 2 0 1 =
        [{ exBookmark 1 1 0 with line := 0 }]) := by
  decide

/-! ### Claim theorem: reorderItem is not all-or-nothing (C9) -/

/-- C9: dropping an item onto itself makes `reorderItem` throw
"Target not found in items list" *after* the dragged item has been removed
from the collection: the store loses the item, contradicting the claim that
every throwing `reorderItem` call leaves the store unchanged. -/
theorem claim9_self_drop_loses_item :
    (reorderItem c9State 1 1 DropPos.before).1 = some targetNotInListMsg ∧
      (reorderItem c9State 1 1 DropPos.before).2.bookmarks = [] ∧
      ¬((reorderItem c9State 1 1 DropPos.before).2 = c9State) := by
  decide

/-! ### Counterexamples for C1, C2, C6 -/

/-- C1 counterexample: (a) `TodoService.addTodo` gives a first child the order
`todos.length` (here 1), so the child's sibling group has orders `[1]`, not
`[0]`; (b) `moveToFolder` of a root bookmark to the root (its current parent)
recomputes its order as max + 1 over a group that still contains the item and
skips normalization, leaving root orders `{1, 2}` instead of `{0, 1}`. -/
theorem claim1_counterexample :
    ((addTodo [exTodo 1 0 none] 2 "x" (some 1)).filter
        (fun t => decide (t.parentId = some 1))).map (fun t => t.order) = [1] ∧
      ((moveToFolder c1State 1 none).2.bookmarks.map (fun b => b.order)) = [2, 1] ∧
      ¬(((moveToFolder c1State 1 none).2.bookmarks.map (fun b => b.order)).Perm
        (List.range 2)) := by
  decide

/-- C2 counterexample: `TodoService.addTodo` assigns `order = todos.length`,
not max-sibling-order + 1. With one root todo, a new child todo gets order 1,
while the claim demands 0 (its parent has no children yet). -/
theorem claim2_counterexample :
    ((addTodo [exTodo 1 0 none] 2 "x" (some 1)).map (fun t => (t.id, t.order))
        = [(1, 0), (2, 1)]) ∧
      ([exTodo 1 0 none].filter (fun t => decide (t.parentId = some 1)) = []) ∧
      ¬((addTodo [exTodo 1 0 none] 2 "x" (some 1)).map (fun t => (t.id, t.order))
        = [(1, 0), (2, 0)]) := by
  decide

/-- C6 counterexample: (a) moving the height-3 folder 1 to the root succeeds
even though targetDepth(root) + subtreeHeight = 1 + 3 > 3, because the code
performs no depth check at all when the destination is the root; (b) when the
target is a descendant of the moved folder and the depth bound is also
exceeded, the call fails with the cycle message, not the depth message, so
"fails with the depth error exactly when the bound is exceeded" is false. -/
theorem claim6_counterexample :
    ((moveToFolder c6State 1 none).1 = none ∧
        1 + getMaxFolderDepth c6State 1 = 4) ∧
      ((moveToFolder c6StateB 1 (some 2)).1 = some cycleMsg ∧
        getFolderDepth c6StateB 2 + getMaxFolderDepth c6StateB 1 = 4 ∧
        ¬((moveToFolder c6StateB 1 (some 2)).1 = some depthMsg)) := by
  decide

/-! ### Claim theorem: count ceilings (C8) -/

/-- C8: `validateTotalCount` returns exactly the specified message iff the
collection already holds at least the ceiling (100 todos / 200 bookmarks) and
`none` otherwise; hence the creation reaching the ceiling passes the check and
the one beyond it is rejected. -/
theorem claim8_count_ceiling :
    (∀ todos : List Todo,
        (TodoValidator.validateTotalCount todos
            = some "Total Todo count cannot exceed 100." ↔ 100 ≤ todos.length) ∧
          (TodoValidator.validateTotalCount todos = none ↔ todos.length < 100)) ∧
      (∀ bookmarks : List Bookmark,
        (BookmarkValidator.validateTotalCount bookmarks
            = some "Total Bookmark count cannot exceed 200." ↔ 200 ≤ bookmarks.length) ∧
          (BookmarkValidator.validateTotalCount bookmarks = none ↔ bookmarks.length < 200)) := by
  constructor
  · intro todos
    by_cases h : 100 ≤ todos.length
    · simp [TodoValidator.validateTotalCount, ge_iff_le, h]
    · simp [TodoValidator.validateTotalCount, ge_iff_le, h]
      omega
  · intro bookmarks
    by_cases h : 200 ≤ bookmarks.length
    · simp [BookmarkValidator.validateTotalCount, ge_iff_le, h]
    · simp [BookmarkValidator.validateTotalCount, ge_iff_le, h]
      omega

/-! ### Basic lemmas: sorting, indices, folds -/

@[simp]
theorem Entry.eid_inl (f : BookmarkFolder) : Entry.eid (Sum.inl f) = f.id := rfl

@[simp]
theorem Entry.eid_inr (b : Bookmark) : Entry.eid (Sum.inr b) = b.id := rfl

@[simp]
theorem Entry.eorder_inl (f : BookmarkFolder) : Entry.eorder (Sum.inl f) = f.order := rfl

@[simp]
theorem Entry.eorder_inr (b : Bookmark) : Entry.eorder (Sum.inr b) = b.order := rfl

theorem insertOrdered_perm (key : α → Nat) (x : α) (l : List α) :
    (insertOrdered key x l).Perm (x :: l) := by
  induction l with
  | nil => exact List.Perm.refl _
  | cons y ys ih =>
    unfold insertOrdered
    split
    · exact (ih.cons y).trans (List.Perm.swap x y ys)
    · exact List.Perm.refl _

theorem sortOrdered_perm (key : α → Nat) (l : List α) : (sortOrdered key l).Perm l := by
  induction l with
  | nil => exact List.Perm.refl _
  | cons x xs ih => exact (insertOrdered_perm key x _).trans (ih.cons x)

theorem idxOf_cons_self (x : Nat) (l : List Nat) : idxOf x (x :: l) = 0 := by
  simp [idxOf]

theorem idxOf_cons_ne {y x : Nat} (l : List Nat) (h : y ≠ x) :
    idxOf x (y :: l) = idxOf x l + 1 := by
  simp [idxOf, h]

theorem map_idxOf_self (l : List Nat) (h : l.Nodup) :
    l.map (fun x => idxOf x l) = List.range l.length := by
  induction l with
  | nil => rfl
  | cons y ys ih =>
    rcases List.nodup_cons.mp h with ⟨hy, hys⟩
    simp only [List.map_cons, idxOf_cons_self, List.length_cons, List.range_succ_eq_map]
    congr 1
    rw [List.map_congr_left (fun x hx => idxOf_cons_ne ys (fun e => hy (by rw [e]; exact hx)))]
    rw [← ih hys, List.map_map]
    rfl

theorem le_foldl_max (l : List Nat) (a : Nat) : a ≤ l.foldl max a := by
  induction l generalizing a with
  | nil => exact Nat.le_refl a
  | cons x xs ih => exact Nat.le_trans (le_max_left a x) (ih (max a x))

theorem mem_le_foldl_max (l : List Nat) (a : Nat) : ∀ x ∈ l, x ≤ l.foldl max a := by
  induction l generalizing a with
  | nil => intro x hx; cases hx
  | cons y ys ih =>
    intro x hx
    rcases List.mem_cons.mp hx with rfl | hx
    · exact Nat.le_trans (le_max_right a x) (le_foldl_max ys (max a x))
    · exact ih (max a y) x hx

theorem foldl_max_perm {l m : List Nat} (h : l.Perm m) :
    ∀ a : Nat, l.foldl max a = m.foldl max a := by
  induction h with
  | nil => intro a; rfl
  | cons x _ ih => intro a; simpa using ih (max a x)
  | swap x y l =>
    intro a
    simp only [List.foldl_cons]
    rw [sup_right_comm]
  | trans _ _ ih1 ih2 => intro a; rw [ih1, ih2]

theorem foldl_max_range (k : Nat) : (List.range (k + 1)).foldl max 0 = k := by
  induction k with
  | zero => rfl
  | succ j ih =>
    rw [List.range_succ, List.foldl_append, ih]
    simp [max_eq_right (Nat.le_succ j)]

theorem foldl_max_mem_or (l : List Nat) : ∀ a, l.foldl max a ∈ l ∨ l.foldl max a = a := by
  induction l with
  | nil => intro a; exact Or.inr rfl
  | cons x xs ih =>
    intro a
    simp only [List.foldl_cons]
    rcases ih (max a x) with h | h
    · exact Or.inl (List.mem_cons_of_mem x h)
    · rcases Nat.le_total a x with hax | hxa
      · rw [h, max_eq_right hax]; exact Or.inl (List.mem_cons_self x xs)
      · rw [h, max_eq_left hxa]; exact Or.inr rfl

theorem foldl_max_mem (l : List Nat) (hl : l ≠ []) : l.foldl max 0 ∈ l := by
  rcases foldl_max_mem_or l 0 with h | h
  · exact h
  · match l, hl with
    | x :: xs, _ =>
      have hx := mem_le_foldl_max (x :: xs) 0 x (List.mem_cons_self x xs)
      rw [h] at hx ⊢
      exact List.mem_cons.mpr (Or.inl (Nat.le_zero.mp hx).symm)

/-! ### Filter and map commutation helpers -/

theorem filter_map_comm {β : Type} (l : List β) (f : β → β) (q : β → Bool)
    (hf : ∀ x, q (f x) = q x) : (l.map f).filter q = (l.filter q).map f := by
  induction l with
  | nil => rfl
  | cons x xs ih =>
    by_cases hx : q x = true
    · simp [List.filter_cons, hf x, hx, ih]
    · simp only [Bool.not_eq_true] at hx
      simp [List.filter_cons, hf x, hx, ih]

theorem filter_map_id {β : Type} (l : List β) (f : β → β) (q : β → Bool)
    (hf : ∀ x, q x = true → f x = x) : (l.filter q).map f = l.filter q := by
  have h1 : (l.filter q).map f = (l.filter q).map id :=
    List.map_congr_left (fun a ha => hf a (List.of_mem_filter ha))
  rw [h1, List.map_id]

/-! ### normalizeGroup: density of the target group, other groups untouched -/

theorem normalizeGroup_siblings_ne (s : BState) (p q : Option Nat) (h : q ≠ p) :
    getFolderSiblings (normalizeGroup s p) q = getFolderSiblings s q := by
  unfold normalizeGroup getFolderSiblings
  simp only []
  rw [filter_map_comm _ _ _ (fun f => by by_cases hf : f.parentId = p <;> simp [hf]),
      filter_map_comm _ _ _ (fun b => by by_cases hb : b.parentId = p <;> simp [hb]),
      filter_map_id _ _ _ (fun f hf => by
        have hq : f.parentId = q := by simpa using hf
        simp [hq, h]),
      filter_map_id _ _ _ (fun b hb => by
        have hq : b.parentId = q := by simpa using hb
        simp [hq, h])]

theorem normIds_perm (s : BState) (p : Option Nat) : (normIds s p).Perm (groupIds s p) :=
  (sortOrdered_perm Entry.eorder (getFolderSiblings s p)).map Entry.eid

theorem groupOrders_normalize_self (s : BState) (p : Option Nat) :
    groupOrders (normalizeGroup s p) p = (groupIds s p).map (fun x => idxOf x (normIds s p)) := by
  unfold groupOrders groupIds getFolderSiblings normalizeGroup
  simp only [List.map_append, List.map_map]
  rw [filter_map_comm _ _ _ (fun f => by by_cases hf : f.parentId = p <;> simp [hf]),
    filter_map_comm _ _ _ (fun b => by by_cases hb : b.parentId = p <;> simp [hb])]
  simp only [List.map_map]
  congr 1
  · apply List.map_congr_left
    intro f hf
    have hp : f.parentId = p := by simpa using List.of_mem_filter hf
    simp [Function.comp, hp]
  · apply List.map_congr_left
    intro b hb
    have hp : b.parentId = p := by simpa using List.of_mem_filter hb
    simp [Function.comp, hp]

theorem normalizeGroup_dense (s : BState) (p : Option Nat) (h : (groupIds s p).Nodup) :
    DenseOrders (groupOrders (normalizeGroup s p) p) := by
  have hperm := normIds_perm s p
  have hnd : (normIds s p).Nodup := hperm.nodup_iff.mpr h
  have hmain : ((groupIds s p).map (fun x => idxOf x (normIds s p))).Perm
      (List.range (normIds s p).length) := by
    have h1 := (hperm.symm).map (fun x => idxOf x (normIds s p))
    rw [map_idxOf_self _ hnd] at h1
    exact h1
  unfold DenseOrders
  rw [groupOrders_normalize_self]
  have hlen : ((groupIds s p).map (fun x => idxOf x (normIds s p))).length
      = (normIds s p).length := by
    simp [hperm.length_eq]
  rw [hlen]
  exact hmain

theorem groupIds_sublist (s : BState) (p : Option Nat) : (groupIds s p).Sublist (allIds s) := by
  unfold groupIds allIds getFolderSiblings
  simp only [List.map_append, List.map_map]
  apply List.Sublist.append
  · have h := (List.filter_sublist (l := s.folders)
      (p := fun f => decide (f.parentId = p))).map (fun f : BookmarkFolder => f.id)
    simpa [Function.comp] using h
  · have h := (List.filter_sublist (l := s.bookmarks)
      (p := fun b => decide (b.parentId = p))).map (fun b : Bookmark => b.id)
    simpa [Function.comp] using h

theorem groupIds_nodup (s : BState) (p : Option Nat) (h : (allIds s).Nodup) :
    (groupIds s p).Nodup :=
  List.Nodup.sublist (groupIds_sublist s p) h

/-! ### newOrder: the append rule -/

theorem newOrder_cons (e : Entry) (es : List Entry) :
    newOrder (e :: es) = ((e :: es).map Entry.eorder).foldl max 0 + 1 := rfl

theorem newOrder_gt (sibs : List Entry) (x : Entry) (hx : x ∈ sibs) :
    x.eorder < newOrder sibs := by
  cases sibs with
  | nil => cases hx
  | cons e es =>
    rw [newOrder_cons]
    have h := mem_le_foldl_max ((e :: es).map Entry.eorder) 0 x.eorder
      (List.mem_map.mpr ⟨x, hx, rfl⟩)
    omega

theorem newOrder_attained (sibs : List Entry) (h : sibs ≠ []) :
    ∃ x ∈ sibs, newOrder sibs = x.eorder + 1 := by
  cases sibs with
  | nil => exact absurd rfl h
  | cons e es =>
    have hmem : ((e :: es).map Entry.eorder).foldl max 0 ∈ (e :: es).map Entry.eorder :=
      foldl_max_mem _ (by simp)
    rcases List.mem_map.mp hmem with ⟨x, hx, hval⟩
    exact ⟨x, hx, by rw [newOrder_cons, hval]⟩

theorem newOrder_eq_length (sibs : List Entry) (h : DenseOrders (sibs.map Entry.eorder)) :
    newOrder sibs = sibs.length := by
  cases sibs with
  | nil => rfl
  | cons e es =>
    unfold DenseOrders at h
    rw [newOrder_cons, foldl_max_perm h 0]
    have hlen : ((e :: es).map Entry.eorder).length = es.length + 1 := by simp
    rw [hlen, foldl_max_range]
    simp

theorem specAppendOrder_eq_newOrder (sibs : List Entry) :
    specAppendOrder sibs = newOrder sibs := by
  cases sibs with
  | nil => rfl
  | cons e es =>
    show (es.map Entry.eorder).foldl max (Entry.eorder e) + 1
      = ((e :: es).map Entry.eorder).foldl max 0 + 1
    simp only [List.map_cons, List.foldl_cons]
    rw [max_eq_right (Nat.zero_le (Entry.eorder e))]

/-! ### Claim theorem: the create/append rule (C2, amended) -/

/-- C2 (amended): creating a bookmark (always at the root) or a folder assigns
it order max-sibling-order + 1, or 0 when the combined folders+bookmarks group
of the parent is empty — exactly the spec's `append(parent)` rule; creating a
todo instead assigns `order = todos.length`, the total number of todos before
insertion, regardless of the parent's sibling group. -/
theorem claim2_amended :
    (∀ (s : BState) (id uri : Nat) (line : Int) (text : String),
        (addBookmark s id uri line text).bookmarks.map (fun b => (b.id, b.order)) =
          s.bookmarks.map (fun b => (b.id, b.order)) ++
            [(id, specAppendOrder (getFolderSiblings s none))]) ∧
      (∀ (s : BState) (id : Nat) (name : String) (p : Option Nat),
        (addFolder s id name p).folders.map (fun f => (f.id, f.order)) =
          s.folders.map (fun f => (f.id, f.order)) ++
            [(id, specAppendOrder (getFolderSiblings s p))]) ∧
      (∀ (todos : List Todo) (id : Nat) (text : String) (p : Option Nat),
        (addTodo todos id text p).map (fun t => (t.id, t.order)) =
          todos.map (fun t => (t.id, t.order)) ++ [(id, todos.length)]) := by
  refine ⟨?_, ?_, ?_⟩
  · intro s id uri line text
    simp [addBookmark, specAppendOrder_eq_newOrder]
  · intro s id name p
    simp [addFolder, specAppendOrder_eq_newOrder]
  · intro todos id text p
    simp [addTodo]

/-! ### Parent-chain machinery -/

instance {α : Type} (gid : α → Nat) (gpar : α → Option Nat) (l : List α) (rank : Nat → Nat) :
    Decidable (Ranked gid gpar l rank) := by
  unfold Ranked; infer_instance

section ChainLemmas

variable {α : Type} (gid : α → Nat) (gpar : α → Option Nat)

theorem findNode_mem {l : List α} {x : Nat} {a : α} (h : findNode gid l x = some a) :
    a ∈ l ∧ gid a = x := by
  unfold findNode at h
  refine ⟨List.mem_of_find?_eq_some h, ?_⟩
  have := List.find?_some h
  simpa using this

theorem findNode_unique {l : List α} (hnd : (l.map gid).Nodup) {a : α} {x : Nat}
    (ha : a ∈ l) (hax : gid a = x) : findNode gid l x = some a := by
  induction l with
  | nil => cases ha
  | cons b bs ih =>
    have hnd2 := hnd
    rw [List.map_cons, List.nodup_cons] at hnd2
    rcases hnd2 with ⟨hb, hbs⟩
    rcases List.mem_cons.mp ha with rfl | ha2
    · unfold findNode
      simp [List.find?_cons, hax]
    · have hbx : gid b ≠ x := by
        intro e
        exact hb (e ▸ hax ▸ List.mem_map_of_mem gid ha2)
      have hdec : (decide (gid b = x)) = false := by simp [hbx]
      unfold findNode
      rw [List.find?_cons, hdec]
      exact ih hbs ha2

theorem parentOf_eq_some {l : List α} {x y : Nat} (h : parentOf gid gpar l x = some y) :
    ∃ a ∈ l, gid a = x ∧ gpar a = some y := by
  unfold parentOf at h
  cases hf : findNode gid l x with
  | none => rw [hf] at h; cases h
  | some a =>
    rw [hf] at h
    rcases findNode_mem gid hf with ⟨hmem, hax⟩
    exact ⟨a, hmem, hax, h⟩

theorem chainHits_reaches (l : List α) :
    ∀ (fuel : Nat) (x z : Nat), chainHits gid gpar l fuel (some x) z = true →
      Reaches gid gpar l x z := by
  intro fuel
  induction fuel with
  | zero => intro x z h; simp [chainHits] at h
  | succ f ih =>
    intro x z h
    have heq : chainHits gid gpar l (f + 1) (some x) z =
        if x = z then true else chainHits gid gpar l f (parentOf gid gpar l x) z := rfl
    by_cases hxz : x = z
    · exact hxz ▸ Reaches.refl x
    · rw [heq, if_neg hxz] at h
      cases hp : parentOf gid gpar l x with
      | none => rw [hp] at h; simp [chainHits] at h
      | some y =>
        rw [hp] at h
        exact Reaches.step x y z hp (ih y z h)

theorem reaches_chainHits {l : List α} {rank : Nat → Nat} (hr : Ranked gid gpar l rank)
    {x z : Nat} (h : Reaches gid gpar l x z) :
    ∀ fuel : Nat, (∀ a ∈ l, gid a = x → rank x < fuel) → 1 ≤ fuel →
      chainHits gid gpar l fuel (some x) z = true := by
  induction h with
  | refl w =>
    intro fuel _ h2
    obtain ⟨f, rfl⟩ : ∃ f, fuel = f + 1 := ⟨fuel - 1, by omega⟩
    show (if w = w then true else _) = true
    simp
  | step x y z hp _ ih =>
    intro fuel h1 h2
    obtain ⟨f, rfl⟩ : ∃ f, fuel = f + 1 := ⟨fuel - 1, by omega⟩
    show (if x = z then true else chainHits gid gpar l f (parentOf gid gpar l x) z) = true
    by_cases hxz : x = z
    · simp [hxz]
    · rw [if_neg hxz, hp]
      obtain ⟨a, ha, hax, hay⟩ := parentOf_eq_some gid gpar hp
      have hrx : rank x < f + 1 := h1 a ha hax
      have hry : rank y < rank x := by
        have := hr.2 a ha y hay
        rwa [hax] at this
      exact ih f (fun b _ _ => by omega) (by omega)

theorem chainHits_iff_reaches {l : List α} {rank : Nat → Nat} (hr : Ranked gid gpar l rank)
    (x z : Nat) :
    chainHits gid gpar l (l.length + 1) (some x) z = true ↔ Reaches gid gpar l x z := by
  constructor
  · exact chainHits_reaches gid gpar l _ x z
  · intro h
    apply reaches_chainHits gid gpar hr h
    · intro a ha hax
      have := hr.1 a ha
      rw [hax] at this
      omega
    · omega

theorem reaches_trans {l : List α} {x y z : Nat} (h1 : Reaches gid gpar l x y)
    (h2 : Reaches gid gpar l y z) : Reaches gid gpar l x z := by
  induction h1 with
  | refl _ => exact h2
  | step a b c hp _ ih => exact Reaches.step a b z hp (ih h2)

theorem reaches_of_parent {l : List α} {c r : Nat} (hp : parentOf gid gpar l c = some r) :
    Reaches gid gpar l c r :=
  Reaches.step c r r hp (Reaches.refl r)

theorem reaches_decomp {l : List α} {x r : Nat} (h : Reaches gid gpar l x r) :
    x = r ∨ ∃ c, Reaches gid gpar l x c ∧ parentOf gid gpar l c = some r := by
  induction h with
  | refl _ => exact Or.inl rfl
  | step a b c hp hrest ih =>
    rcases ih with rfl | ⟨c2, hc2, hpc2⟩
    · exact Or.inr ⟨a, Reaches.refl a, hp⟩
    · exact Or.inr ⟨c2, Reaches.step a b c2 hp hc2, hpc2⟩

theorem findNode_filter_some {l : List α} (q : α → Bool) (hnd : (l.map gid).Nodup)
    {x : Nat} {a : α} (hf : findNode gid l x = some a) (hq : q a = true) :
    findNode gid (l.filter q) x = some a := by
  rcases findNode_mem gid hf with ⟨hmem, hax⟩
  apply findNode_unique gid _ (List.mem_filter.mpr ⟨hmem, hq⟩) hax
  exact List.Nodup.sublist (List.Sublist.map gid (List.filter_sublist l)) hnd

theorem findNode_filter_none {l : List α} (q : α → Bool) {x : Nat}
    (hf : findNode gid l x = none) : findNode gid (l.filter q) x = none := by
  unfold findNode at hf ⊢
  rw [List.find?_eq_none] at hf ⊢
  intro a ha
  exact hf a (List.mem_of_mem_filter ha)

/-- Walking the chain inside a filtered list implies walking it in the full
list, provided ids are unique. -/
theorem reaches_of_filter {l : List α} (q : α → Bool) (hnd : (l.map gid).Nodup)
    {x z : Nat} (h : Reaches gid gpar (l.filter q) x z) : Reaches gid gpar l x z := by
  induction h with
  | refl w => exact Reaches.refl w
  | step a b c hp _ ih =>
    obtain ⟨n, hn, hna, hnb⟩ := parentOf_eq_some gid gpar hp
    have hmem : n ∈ l := List.mem_of_mem_filter hn
    have : parentOf gid gpar l a = some b := by
      unfold parentOf
      rw [findNode_unique gid hnd hmem hna]
      exact hnb
    exact Reaches.step a b c this ih

/-- Walking the chain in the full list restricts to the filtered list when the
start survives the filter and survival is closed under taking parents. -/
theorem reaches_to_filter {l : List α} (q : α → Bool) (hnd : (l.map gid).Nodup)
    (hclosed : ∀ a ∈ l, q a = true → ∀ y, gpar a = some y →
      ∀ b ∈ l, gid b = y → q b = true)
    {x z : Nat} (h : Reaches gid gpar l x z)
    (hx : ∀ a ∈ l, gid a = x → q a = true) :
    Reaches gid gpar (l.filter q) x z := by
  induction h with
  | refl w => exact Reaches.refl w
  | step a b c hp _ ih =>
    obtain ⟨n, hn, hna, hnb⟩ := parentOf_eq_some gid gpar hp
    have hqn : q n = true := hx n hn hna
    have hp2 : parentOf gid gpar (l.filter q) a = some b := by
      unfold parentOf
      rw [findNode_filter_some gid q hnd (findNode_unique gid hnd hn hna) hqn]
      exact hnb
    apply Reaches.step a b c hp2
    apply ih
    intro m hm hmb
    exact hclosed n hn hqn b hnb m hm hmb

end ChainLemmas

/-! ### Claim theorem: folder cycle guard (C5) -/

theorem allIds_parts (s : BState) (h : (allIds s).Nodup) :
    (s.folders.map (fun f => f.id)).Nodup ∧ (s.bookmarks.map (fun b => b.id)).Nodup ∧
      ∀ x, x ∈ s.folders.map (fun f => f.id) → x ∉ s.bookmarks.map (fun b => b.id) := by
  unfold allIds at h
  rw [List.nodup_append] at h
  exact ⟨h.1, h.2.1, fun x hx hx2 => h.2.2 hx hx2⟩

/-- C5: moving a folder `F` under a target `t` that is `F` itself or one of its
descendants throws exactly the cycle error and returns with the store
unchanged (the guard runs before any mutation). -/
theorem claim5_folder_cycle_rejected (s : BState) (rank : Nat → Nat) (F : BookmarkFolder)
    (t : Nat) (hrank : FRanked s.folders rank) (hnd : (allIds s).Nodup)
    (hF : F ∈ s.folders) (hTF : t = F.id ∨ FReaches s.folders t F.id) :
    moveToFolder s F.id (some t) = (some cycleMsg, s) := by
  obtain ⟨hfnd, _, hdisj⟩ := allIds_parts s hnd
  have hreach : FReaches s.folders t F.id := by
    rcases hTF with rfl | h
    · exact Reaches.refl _
    · exact h
  have hbnone : s.bookmarks.find? (fun b => decide (b.id = F.id)) = none := by
    rw [List.find?_eq_none]
    intro b hb
    simp only [decide_eq_true_eq]
    intro e
    exact hdisj F.id (List.mem_map_of_mem _ hF) (e ▸ List.mem_map_of_mem _ hb)
  have hfsome : s.folders.find? (fun f => decide (f.id = F.id)) = some F :=
    findNode_unique (fun f : BookmarkFolder => f.id) hfnd hF rfl
  have hdesc : isDescendantOf s t F.id = true :=
    (chainHits_iff_reaches (fun f : BookmarkFolder => f.id) (fun f => f.parentId)
      hrank t F.id).mpr hreach
  unfold moveToFolder
  rw [hbnone, hfsome]
  simp [hdesc]

/-- Witness for C5 at a concrete two-folder store: moving folder 1 into its
child folder 2 is rejected with the cycle error and the store is unchanged. -/
theorem claim5_witness :
    moveToFolder c6StateB 1 (some 2) = (some cycleMsg, c6StateB) :=
  claim5_folder_cycle_rejected c6StateB (fun x => x - 1) (exFolder 1 0 none) 2
    (by decide) (by decide) (by decide)
    (Or.inr (Reaches.step 2 1 1 (by decide) (Reaches.refl 1)))

/-! ### Claim theorem: clearCheckedTodos (C10) -/

theorem mem_foldl_append {β γ : Type} (f : γ → List β) (l : List γ) :
    ∀ (acc : List β) (x : β),
      x ∈ l.foldl (fun a c => a ++ f c) acc ↔ x ∈ acc ∨ ∃ c ∈ l, x ∈ f c := by
  induction l with
  | nil => simp
  | cons c cs ih =>
    intro acc x
    simp only [List.foldl_cons]
    rw [ih]
    constructor
    · rintro (h | ⟨d, hd, hx⟩)
      · rcases List.mem_append.mp h with h2 | h2
        · exact Or.inl h2
        · exact Or.inr ⟨c, List.mem_cons_self c cs, h2⟩
      · exact Or.inr ⟨d, List.mem_cons_of_mem c hd, hx⟩
    · rintro (h | ⟨d, hd, hx⟩)
      · exact Or.inl (List.mem_append.mpr (Or.inl h))
      · rcases List.mem_cons.mp hd with rfl | hd2
        · exact Or.inl (List.mem_append.mpr (Or.inr hx))
        · exact Or.inr ⟨d, hd2, hx⟩

theorem markFor_succ (todos : List Todo) (f r : Nat) :
    markForDeletion todos (f + 1) r =
      r :: (todos.filter (fun t => decide (t.parentId = some r))).foldl
        (fun acc c => acc ++ markForDeletion todos f c.id) [] := rfl

theorem todo_parentOf (todos : List Todo) (hnd : (todos.map (fun t => t.id)).Nodup)
    {a : Todo} (ha : a ∈ todos) :
    parentOf (fun t : Todo => t.id) (fun t => t.parentId) todos a.id = a.parentId := by
  unfold parentOf
  rw [findNode_unique (fun t : Todo => t.id) hnd ha rfl]
  rfl

theorem markFor_sound (todos : List Todo) (hnd : (todos.map (fun t => t.id)).Nodup) :
    ∀ (fuel r x : Nat), x ∈ markForDeletion todos fuel r →
      x = r ∨ ∃ tx ∈ todos, tx.id = x ∧ TReaches todos x r := by
  intro fuel
  induction fuel with
  | zero =>
    intro r x hx
    simp [markForDeletion] at hx
    exact Or.inl hx
  | succ f ih =>
    intro r x hx
    rw [markFor_succ] at hx
    rcases List.mem_cons.mp hx with rfl | hx2
    · exact Or.inl rfl
    · rw [mem_foldl_append] at hx2
      rcases hx2 with h | ⟨c, hc, hxc⟩
      · cases h
      · have hcmem : c ∈ todos := List.mem_filter.mp hc |>.1
        have hcpar : c.parentId = some r := by
          have := List.mem_filter.mp hc |>.2
          simpa using this
        have hpc : parentOf (fun t : Todo => t.id) (fun t => t.parentId) todos c.id = some r := by
          rw [todo_parentOf todos hnd hcmem, hcpar]
        rcases ih c.id x hxc with rfl | ⟨tx, htx, hidx, hrx⟩
        · exact Or.inr ⟨c, hcmem, rfl, reaches_of_parent _ _ hpc⟩
        · exact Or.inr ⟨tx, htx, hidx, reaches_trans _ _ hrx (reaches_of_parent _ _ hpc)⟩

theorem markFor_complete (todos : List Todo) (rank : Nat → Nat) (hr : TRanked todos rank) :
    ∀ (fuel r x : Nat), todos.length + 1 ≤ fuel + rank r →
      (x = r ∨ ∃ tx ∈ todos, tx.id = x ∧ TReaches todos x r) →
      x ∈ markForDeletion todos fuel r := by
  intro fuel
  induction fuel with
  | zero =>
    intro r x hb hx
    rcases hx with rfl | ⟨tx, htx, hidx, hrx⟩
    · simp [markForDeletion]
    · rcases reaches_decomp _ _ hrx with rfl | ⟨c, _, hpc⟩
      · simp [markForDeletion]
      · obtain ⟨a, ha, _, hay⟩ := parentOf_eq_some _ _ hpc
        have h1 : rank r < rank a.id := hr.2 a ha r hay
        have h2 : rank a.id < todos.length := hr.1 a ha
        omega
  | succ f ih =>
    intro r x hb hx
    rw [markFor_succ]
    rcases hx with rfl | ⟨tx, htx, hidx, hrx⟩
    · exact List.mem_cons_self _ _
    · rcases reaches_decomp _ _ hrx with rfl | ⟨c, hxc, hpc⟩
      · exact List.mem_cons_self _ _
      · obtain ⟨a, ha, hac, hay⟩ := parentOf_eq_some _ _ hpc
        have hrankc : rank r < rank c := by
          have h1 : rank r < rank a.id := hr.2 a ha r hay
          rwa [hac] at h1
        have hafilter : a ∈ todos.filter (fun t => decide (t.parentId = some r)) :=
          List.mem_filter.mpr ⟨ha, by simp [hay]⟩
        have hx2 : x ∈ markForDeletion todos f c := by
          apply ih c x (by omega)
          exact Or.inr ⟨tx, htx, hidx, hxc⟩
        apply List.mem_cons_of_mem
        rw [mem_foldl_append]
        exact Or.inr ⟨a, hafilter, by rw [hac]; exact hx2⟩

theorem collectChecked_mem_aux (todos : List Todo) (l : List Todo) :
    ∀ (acc : List Nat) (x : Nat),
      x ∈ l.foldl
          (fun acc t => if t.done then acc ++ markForDeletion todos (todos.length + 1) t.id
            else acc) acc ↔
        x ∈ acc ∨ ∃ d ∈ l, d.done = true ∧ x ∈ markForDeletion todos (todos.length + 1) d.id := by
  induction l with
  | nil => simp
  | cons t ts ih =>
    intro acc x
    simp only [List.foldl_cons]
    by_cases ht : t.done
    · rw [if_pos ht, ih]
      constructor
      · rintro (h | ⟨d, hd, hdone, hx⟩)
        · rcases List.mem_append.mp h with h2 | h2
          · exact Or.inl h2
          · exact Or.inr ⟨t, List.mem_cons_self t ts, ht, h2⟩
        · exact Or.inr ⟨d, List.mem_cons_of_mem t hd, hdone, hx⟩
      · rintro (h | ⟨d, hd, hdone, hx⟩)
        · exact Or.inl (List.mem_append.mpr (Or.inl h))
        · rcases List.mem_cons.mp hd with rfl | hd2
          · exact Or.inl (List.mem_append.mpr (Or.inr hx))
          · exact Or.inr ⟨d, hd2, hdone, hx⟩
    · rw [if_neg ht, ih]
      constructor
      · rintro (h | ⟨d, hd, hdone, hx⟩)
        · exact Or.inl h
        · exact Or.inr ⟨d, List.mem_cons_of_mem t hd, hdone, hx⟩
      · rintro (h | ⟨d, hd, hdone, hx⟩)
        · exact Or.inl h
        · rcases List.mem_cons.mp hd with rfl | hd2
          · exact absurd hdone (by simpa using ht)
          · exact Or.inr ⟨d, hd2, hdone, hx⟩

theorem collectChecked_mem (todos : List Todo) (x : Nat) :
    x ∈ collectChecked todos ↔
      ∃ d ∈ todos, d.done = true ∧ x ∈ markForDeletion todos (todos.length + 1) d.id := by
  unfold collectChecked
  rw [collectChecked_mem_aux]
  simp

theorem collectChecked_iff_hasDone (todos : List Todo) (rank : Nat → Nat)
    (hr : TRanked todos rank) (hnd : (todos.map (fun t => t.id)).Nodup)
    (t : Todo) (ht : t ∈ todos) :
    t.id ∈ collectChecked todos ↔ hasDoneAncestor todos t = true := by
  rw [collectChecked_mem]
  unfold hasDoneAncestor
  rw [List.any_eq_true]
  constructor
  · rintro ⟨d, hd, hdone, hmark⟩
    refine ⟨d, hd, ?_⟩
    rw [Bool.and_eq_true]
    refine ⟨hdone, ?_⟩
    rcases markFor_sound todos hnd _ _ _ hmark with heq | ⟨_, _, _, hrx⟩
    · exact (chainHits_iff_reaches (fun x : Todo => x.id) (fun x => x.parentId)
        hr t.id d.id).mpr (heq ▸ Reaches.refl t.id)
    · exact (chainHits_iff_reaches (fun x : Todo => x.id) (fun x => x.parentId)
        hr t.id d.id).mpr hrx
  · rintro ⟨d, hd, hboth⟩
    rw [Bool.and_eq_true] at hboth
    refine ⟨d, hd, hboth.1, ?_⟩
    apply markFor_complete todos rank hr _ _ _ (by omega)
    exact Or.inr ⟨t, ht, rfl,
      (chainHits_iff_reaches (fun x : Todo => x.id) (fun x => x.parentId)
        hr t.id d.id).mp hboth.2⟩

/-- C10: `clearCheckedTodos` removes exactly the todos that are done or have a
done ancestor on their `parentId` chain (so every descendant of a done todo is
removed even when itself not done, and nothing else is removed). Hypotheses:
distinct ids and an acyclic (ranked) todo tree. -/
theorem claim10_clear_checked (todos : List Todo) (rank : Nat → Nat)
    (hr : TRanked todos rank) (hnd : (todos.map (fun t => t.id)).Nodup) :
    clearCheckedTodos todos = todos.filter (fun t => !(hasDoneAncestor todos t)) := by
  have key := collectChecked_iff_hasDone todos rank hr hnd
  by_cases hempty : (collectChecked todos).isEmpty = true
  · have hnil : collectChecked todos = [] := by
      cases hcc : collectChecked todos
      · rfl
      · rw [hcc] at hempty; cases hempty
    have hall : ∀ t ∈ todos, (!(hasDoneAncestor todos t)) = true := by
      intro t ht
      by_cases hdone : hasDoneAncestor todos t = true
      · exfalso
        have := (key t ht).mpr hdone
        rw [hnil] at this
        cases this
      · simp only [Bool.not_eq_true] at hdone
        simp [hdone]
    rw [List.filter_eq_self.mpr hall]
    simp [clearCheckedTodos, hempty]
  · have hempty2 : (collectChecked todos).isEmpty = false := by
      simpa using hempty
    simp only [clearCheckedTodos, hempty2, Bool.false_eq_true, if_false]
    apply List.filter_congr
    intro t ht
    by_cases hdone : hasDoneAncestor todos t = true
    · have hin : t.id ∈ collectChecked todos := (key t ht).mpr hdone
      simp [hin, hdone]
    · have hnotin : t.id ∉ collectChecked todos := fun hin => hdone ((key t ht).mp hin)
      simp only [Bool.not_eq_true] at hdone
      simp [hnotin, hdone]

/-- Witness for C10 on a concrete store: todos 1 ← 2 ← 3 with 2 done and a
root todo 4; exactly 2 and its not-done child 3 are removed. -/
theorem claim10_witness :
    clearCheckedTodos c10Todos = c10Todos.filter (fun t => !(hasDoneAncestor c10Todos t)) :=
  claim10_clear_checked c10Todos (fun x => x - 1) (by decide) (by decide)

/-! ### More chain lemmas: determinism, ranks, disjoint sibling subtrees -/

section ChainLemmas2

variable {α : Type} (gid : α → Nat) (gpar : α → Option Nat)

theorem reaches_rank {l : List α} {rank : Nat → Nat} (hr : Ranked gid gpar l rank)
    {x z : Nat} (h : Reaches gid gpar l x z) : rank z ≤ rank x := by
  induction h with
  | refl w => exact Nat.le_refl _
  | step x y z hp _ ih =>
    obtain ⟨a, ha, hax, hay⟩ := parentOf_eq_some gid gpar hp
    have h1 : rank y < rank (gid a) := hr.2 a ha y hay
    rw [hax] at h1
    omega

theorem reaches_det {l : List α} {x z : Nat} (h : Reaches gid gpar l x z) (hxz : x ≠ z) :
    ∃ y, parentOf gid gpar l x = some y ∧ Reaches gid gpar l y z := by
  cases h with
  | refl => exact absurd rfl hxz
  | step x y z hp hrest => exact ⟨y, hp, hrest⟩

theorem reaches_comparable {l : List α} {x a : Nat} (h1 : Reaches gid gpar l x a) :
    ∀ b, Reaches gid gpar l x b → Reaches gid gpar l a b ∨ Reaches gid gpar l b a := by
  induction h1 with
  | refl w => intro b h2; exact Or.inl h2
  | step x y a hp hrest ih =>
    intro b h2
    by_cases hxb : x = b
    · exact Or.inr (hxb ▸ Reaches.step x y a hp hrest)
    · obtain ⟨y2, hy2, hrest2⟩ := reaches_det gid gpar h2 hxb
      rw [hp] at hy2
      injection hy2 with hy2e
      exact ih b (hy2e ▸ hrest2)

theorem reaches_strict_rank {l : List α} {rank : Nat → Nat} (hr : Ranked gid gpar l rank)
    {c r : Nat} (hc : parentOf gid gpar l c = some r) (h : Reaches gid gpar l r c) :
    False := by
  obtain ⟨a, ha, hac, har⟩ := parentOf_eq_some gid gpar hc
  have h1 : rank r < rank (gid a) := hr.2 a ha r har
  rw [hac] at h1
  have h2 : rank c ≤ rank r := reaches_rank gid gpar hr h
  omega

theorem sibling_subtrees_disjoint {l : List α} {rank : Nat → Nat}
    (hr : Ranked gid gpar l rank) {c1 c2 r x : Nat}
    (hc1 : parentOf gid gpar l c1 = some r) (hc2 : parentOf gid gpar l c2 = some r)
    (hne : c1 ≠ c2) (h1 : Reaches gid gpar l x c1) (h2 : Reaches gid gpar l x c2) :
    False := by
  have haux : ∀ d1 d2 : Nat, parentOf gid gpar l d1 = some r →
      parentOf gid gpar l d2 = some r → d1 ≠ d2 → Reaches gid gpar l d1 d2 → False := by
    intro d1 d2 hd1 hd2 hdne hreach
    obtain ⟨y, hy, hrest⟩ := reaches_det gid gpar hreach hdne
    rw [hd1] at hy
    injection hy with hye
    exact reaches_strict_rank gid gpar hr hd2 (hye ▸ hrest)
  rcases reaches_comparable gid gpar h1 c2 h2 with h | h
  · exact haux c1 c2 hc1 hc2 hne h
  · exact haux c2 c1 hc2 hc1 (Ne.symm hne) h

/-- Chains in a sub-collection hold in the full collection (full ids unique). -/
theorem reaches_of_subset {l0 l : List α} (hnd0 : (l0.map gid).Nodup)
    (hsub : ∀ a ∈ l, a ∈ l0) {x z : Nat} (h : Reaches gid gpar l x z) :
    Reaches gid gpar l0 x z := by
  induction h with
  | refl w => exact Reaches.refl w
  | step a b c hp _ ih =>
    obtain ⟨n, hn, hna, hnb⟩ := parentOf_eq_some gid gpar hp
    have hp0 : parentOf gid gpar l0 a = some b := by
      unfold parentOf
      rw [findNode_unique gid hnd0 (hsub n hn) hna]
      exact hnb
    exact Reaches.step a b c hp0 ih

/-- A full-collection chain to `z` restricts to a sub-collection that contains
every node whose id reaches `z` (both collections with unique ids). -/
theorem reaches_restrict {l0 l : List α}
    (hndl : (l.map gid).Nodup) (hclos : ∀ a ∈ l0, Reaches gid gpar l0 (gid a) z → a ∈ l)
    {x : Nat} (h : Reaches gid gpar l0 x z) : Reaches gid gpar l x z := by
  induction h with
  | refl w => exact Reaches.refl w
  | step a b c hp hrest ih =>
    obtain ⟨n, hn, hna, hnb⟩ := parentOf_eq_some gid gpar hp
    have hreach : Reaches gid gpar l0 (gid n) c := by
      rw [hna]
      exact Reaches.step a b c hp hrest
    have hnl : n ∈ l := hclos n hn hreach
    have hpl : parentOf gid gpar l a = some b := by
      unfold parentOf
      rw [findNode_unique gid hndl hnl hna]
      exact hnb
    exact Reaches.step a b c hpl (ih hclos)

/-- Decompose membership in the subtree of `r` by `r`'s children. -/
theorem reaches_subtree_decomp (l : List α) (x r : Nat) :
    Reaches gid gpar l x r ↔
      x = r ∨ ∃ c, parentOf gid gpar l c = some r ∧ Reaches gid gpar l x c := by
  constructor
  · intro h
    rcases reaches_decomp gid gpar h with h | ⟨c, hc, hpc⟩
    · exact Or.inl h
    · exact Or.inr ⟨c, hpc, hc⟩
  · rintro (rfl | ⟨c, hpc, hxc⟩)
    · exact Reaches.refl _
    · exact reaches_trans gid gpar hxc (reaches_of_parent gid gpar hpc)

end ChainLemmas2

/-! ### deleteFolderRecursive removes exactly the subtree (towards C7) -/

theorem bookmarkRemovedAny_nil (s0 : BState) (b : Bookmark) :
    bookmarkRemovedAny s0 [] b = false := by
  unfold bookmarkRemovedAny
  cases b.parentId <;> simp

theorem folderRemovedAny_nil (s0 : BState) (f : BookmarkFolder) :
    folderRemovedAny s0 [] f = false := by
  simp [folderRemovedAny]

theorem bookmarkRemovedAny_cons (s0 : BState) (c : Nat) (cs : List Nat) (b : Bookmark) :
    bookmarkRemovedAny s0 (c :: cs) b =
      (bookmarkRemoved s0 c b || bookmarkRemovedAny s0 cs b) := by
  unfold bookmarkRemovedAny bookmarkRemoved
  cases b.parentId <;> simp [List.any_cons]

theorem folderRemovedAny_cons (s0 : BState) (c : Nat) (cs : List Nat) (f : BookmarkFolder) :
    folderRemovedAny s0 (c :: cs) f =
      (folderRemoved s0 c f || folderRemovedAny s0 cs f) := by
  simp [folderRemovedAny, folderRemoved, List.any_cons]

theorem dfr_succ_eq (m r : Nat) (st : BState) :
    deleteFolderRecursive (m + 1) r st =
      { bookmarks :=
          (((st.folders.filter (fun f => decide (f.parentId = some r))).map
              (fun f => f.id)).foldl
            (fun stx cid => deleteFolderRecursive m cid stx)
            { st with bookmarks :=
                st.bookmarks.filter (fun b => decide (b.parentId ≠ some r)) }).bookmarks,
        folders :=
          ((((st.folders.filter (fun f => decide (f.parentId = some r))).map
              (fun f => f.id)).foldl
            (fun stx cid => deleteFolderRecursive m cid stx)
            { st with bookmarks :=
                st.bookmarks.filter (fun b => decide (b.parentId ≠ some r)) }).folders.filter
            (fun f => decide (f.id ≠ r))) } := rfl

theorem dfr_spec (s0 : BState) (rank : Nat → Nat) (hr : FRanked s0.folders rank)
    (hnd0 : (s0.folders.map (fun f => f.id)).Nodup) :
    ∀ (fuel r : Nat) (st : BState),
      (∀ f ∈ st.folders, f ∈ s0.folders) →
      (st.folders.map (fun f => f.id)).Nodup →
      (∀ g ∈ s0.folders, FReaches s0.folders g.id r → g ∈ st.folders) →
      s0.folders.length + 1 ≤ fuel + rank r →
      1 ≤ fuel →
      deleteFolderRecursive fuel r st =
        { bookmarks := st.bookmarks.filter (fun b => !(bookmarkRemoved s0 r b)),
          folders := st.folders.filter (fun f => !(folderRemoved s0 r f)) } := by
  have hbridge : ∀ x z : Nat, isDescendantOf s0 x z = true ↔ FReaches s0.folders x z :=
    fun x z => chainHits_iff_reaches (fun f : BookmarkFolder => f.id)
      (fun f => f.parentId) hr x z
  intro fuel
  induction fuel with
  | zero =>
    intro r st _ _ _ _ h1
    omega
  | succ m ih =>
    intro r st hsub hndst hintact hfuel _
    -- facts about the children of r in st
    have hsubs_elim : ∀ c ∈ (st.folders.filter
        (fun f => decide (f.parentId = some r))).map (fun f => f.id),
        ∃ fc, fc ∈ st.folders ∧ fc.id = c ∧ fc.parentId = some r := by
      intro c hc
      rcases List.mem_map.mp hc with ⟨fc, hfc, hfcid⟩
      exact ⟨fc, List.mem_filter.mp hfc |>.1, hfcid, by
        have := List.mem_filter.mp hfc |>.2
        simpa using this⟩
    have hchild_par : ∀ c ∈ (st.folders.filter
        (fun f => decide (f.parentId = some r))).map (fun f => f.id),
        parentOf (fun f : BookmarkFolder => f.id) (fun f => f.parentId) s0.folders c
          = some r := by
      intro c hc
      rcases hsubs_elim c hc with ⟨fc, hfcst, hfcid, hfcpar⟩
      unfold parentOf
      rw [findNode_unique (fun f : BookmarkFolder => f.id) hnd0 (hsub fc hfcst) hfcid]
      simpa using hfcpar
    have hchild_rank : ∀ c ∈ (st.folders.filter
        (fun f => decide (f.parentId = some r))).map (fun f => f.id),
        rank r < rank c ∧ rank c < s0.folders.length := by
      intro c hc
      rcases hsubs_elim c hc with ⟨fc, hfcst, hfcid, hfcpar⟩
      constructor
      · have h1 : rank r < rank fc.id := hr.2 fc (hsub fc hfcst) r hfcpar
        rwa [hfcid] at h1
      · have h2 : rank fc.id < s0.folders.length := hr.1 fc (hsub fc hfcst)
        rwa [hfcid] at h2
    have hsubs_nodup : ((st.folders.filter
        (fun f => decide (f.parentId = some r))).map (fun f => f.id)).Nodup := by
      apply List.Nodup.sublist _ hndst
      exact List.Sublist.map _ (List.filter_sublist _)
    have hchild_intact : ∀ c ∈ (st.folders.filter
        (fun f => decide (f.parentId = some r))).map (fun f => f.id),
        ∀ g ∈ s0.folders, FReaches s0.folders g.id c → g ∈ st.folders := by
      intro c hc g hg hgc
      apply hintact g hg
      exact reaches_trans _ _ hgc (reaches_of_parent _ _ (hchild_par c hc))
    -- subtree decomposition at r, with children read off from st
    have hdec : ∀ x : Nat, isDescendantOf s0 x r = true ↔
        (x = r ∨ ∃ c ∈ (st.folders.filter
          (fun f => decide (f.parentId = some r))).map (fun f => f.id),
          isDescendantOf s0 x c = true) := by
      intro x
      rw [hbridge]
      constructor
      · intro h
        rcases (reaches_subtree_decomp (fun f : BookmarkFolder => f.id)
            (fun f => f.parentId) s0.folders x r).mp h with h1 | ⟨c, hpc, hxc⟩
        · exact Or.inl h1
        · obtain ⟨g0, hg0, hg0id, hg0par⟩ := parentOf_eq_some _ _ hpc
          have hg0st : g0 ∈ st.folders := by
            apply hintact g0 hg0
            rw [hg0id]
            exact reaches_of_parent _ _ hpc
          refine Or.inr ⟨c, List.mem_map.mpr ⟨g0, List.mem_filter.mpr
            ⟨hg0st, by simp [hg0par]⟩, hg0id⟩, (hbridge x c).mpr hxc⟩
      · rintro (rfl | ⟨c, hc, hxc⟩)
        · exact Reaches.refl x
        · exact reaches_trans _ _ ((hbridge x c).mp hxc)
            (reaches_of_parent _ _ (hchild_par c hc))
    -- inner lemma: folding the recursive call over a list of child roots
    have inner : ∀ cs : List Nat,
        (∀ c ∈ cs, parentOf (fun f : BookmarkFolder => f.id) (fun f => f.parentId)
          s0.folders c = some r) →
        (∀ c ∈ cs, rank r < rank c ∧ rank c < s0.folders.length) →
        cs.Nodup →
        ∀ st1 : BState,
          (∀ f ∈ st1.folders, f ∈ s0.folders) →
          (st1.folders.map (fun f => f.id)).Nodup →
          (∀ c ∈ cs, ∀ g ∈ s0.folders, FReaches s0.folders g.id c → g ∈ st1.folders) →
          cs.foldl (fun stx cid => deleteFolderRecursive m cid stx) st1 =
            { bookmarks := st1.bookmarks.filter (fun b => !(bookmarkRemovedAny s0 cs b)),
              folders := st1.folders.filter (fun f => !(folderRemovedAny s0 cs f)) } := by
      intro cs
      induction cs with
      | nil =>
        intro _ _ _ st1 _ _ _
        simp [bookmarkRemovedAny_nil, folderRemovedAny_nil]
      | cons c cs ihcs =>
        intro hpar hrank hnodup st1 hsub1 hnd1 hintact1
        have hcr := (hrank c (List.mem_cons_self c cs)).1
        have hclen := (hrank c (List.mem_cons_self c cs)).2
        have hstep : deleteFolderRecursive m c st1 =
            { bookmarks := st1.bookmarks.filter (fun b => !(bookmarkRemoved s0 c b)),
              folders := st1.folders.filter (fun f => !(folderRemoved s0 c f)) } :=
          ih c st1 hsub1 hnd1 (hintact1 c (List.mem_cons_self c cs)) (by omega) (by omega)
        have hcsdx : ∀ c2 ∈ cs, c ≠ c2 := by
          intro c2 hc2 he
          exact (List.nodup_cons.mp hnodup).1 (he ▸ hc2)
        simp only [List.foldl_cons]
        rw [hstep]
        rw [ihcs (fun c2 hc2 => hpar c2 (List.mem_cons_of_mem c hc2))
          (fun c2 hc2 => hrank c2 (List.mem_cons_of_mem c hc2))
          (List.nodup_cons.mp hnodup).2
          _
          (fun f hf => hsub1 f (List.mem_of_mem_filter hf))
          (List.Nodup.sublist (List.Sublist.map _ (List.filter_sublist _)) hnd1)
          (by
            intro c2 hc2 g hg hgc2
            apply List.mem_filter.mpr
            refine ⟨hintact1 c2 (List.mem_cons_of_mem c hc2) g hg hgc2, ?_⟩
            have hnotc : ¬(FReaches s0.folders g.id c) := by
              intro hgc
              exact sibling_subtrees_disjoint _ _ hr
                (hpar c (List.mem_cons_self c cs))
                (hpar c2 (List.mem_cons_of_mem c hc2))
                (hcsdx c2 hc2) hgc hgc2
            have : folderRemoved s0 c g = false := by
              rcases hfr : folderRemoved s0 c g with _ | _
              · rfl
              · exact absurd ((hbridge g.id c).mp hfr) hnotc
            simp [this])]
        congr 1
        · rw [List.filter_filter]
          apply List.filter_congr
          intro b _
          rw [bookmarkRemovedAny_cons]
          cases hbr : bookmarkRemoved s0 c b <;>
            cases hba : bookmarkRemovedAny s0 cs b <;> simp [hbr, hba]
        · rw [List.filter_filter]
          apply List.filter_congr
          intro f _
          rw [folderRemovedAny_cons]
          cases hfr : folderRemoved s0 c f <;>
            cases hfa : folderRemovedAny s0 cs f <;> simp [hfr, hfa]
    -- assemble the step
    rw [dfr_succ_eq]
    rw [inner _ hchild_par hchild_rank hsubs_nodup
      { st with bookmarks := st.bookmarks.filter (fun b => decide (b.parentId ≠ some r)) }
      (fun f hf => hsub f hf)
      hndst
      (fun c hc g hg hgc => hchild_intact c hc g hg hgc)]
    dsimp only
    congr 1
    · rw [List.filter_filter]
      apply List.filter_congr
      intro b _
      unfold bookmarkRemoved bookmarkRemovedAny
      rcases hbp : b.parentId with _ | p
      · simp
      · dsimp only
        by_cases hpr : p = r
        · subst hpr
          have hdr : isDescendantOf s0 p p = true := (hbridge p p).mpr (Reaches.refl p)
          simp [hdr]
        · rcases hd : isDescendantOf s0 p r with _ | _
          · have hany : (((st.folders.filter (fun f => decide (f.parentId = some r))).map
                (fun f => f.id)).any (fun c => isDescendantOf s0 p c)) = false := by
              rw [List.any_eq_false]
              intro c hc
              rcases hdc : isDescendantOf s0 p c with _ | _
              · simp
              · exfalso
                have := (hdec p).mpr (Or.inr ⟨c, hc, hdc⟩)
                rw [hd] at this
                cases this
            simp [hany, hpr]
          · rcases (hdec p).mp hd with he | ⟨c, hc, hdc⟩
            · exact absurd he hpr
            · have hany : (((st.folders.filter (fun f => decide (f.parentId = some r))).map
                  (fun f => f.id)).any (fun c => isDescendantOf s0 p c)) = true :=
                List.any_eq_true.mpr ⟨c, hc, hdc⟩
              simp [hany]
    · rw [List.filter_filter]
      apply List.filter_congr
      intro f _
      unfold folderRemoved folderRemovedAny
      by_cases hfr : f.id = r
      · have hdr2 : isDescendantOf s0 r r = true := (hbridge r r).mpr (Reaches.refl r)
        have hdr : isDescendantOf s0 f.id r = true := by
          rw [hfr]
          exact hdr2
        simp [hfr, hdr, hdr2]
      · rcases hd : isDescendantOf s0 f.id r with _ | _
        · have hany : (((st.folders.filter (fun g => decide (g.parentId = some r))).map
              (fun g => g.id)).any (fun c => isDescendantOf s0 f.id c)) = false := by
            rw [List.any_eq_false]
            intro c hc
            rcases hdc : isDescendantOf s0 f.id c with _ | _
            · simp
            · exfalso
              have := (hdec f.id).mpr (Or.inr ⟨c, hc, hdc⟩)
              rw [hd] at this
              cases this
          simp [hany, hfr]
        · rcases (hdec f.id).mp hd with he | ⟨c, hc, hdc⟩
          · exact absurd he hfr
          · have hany : (((st.folders.filter (fun g => decide (g.parentId = some r))).map
                (fun g => g.id)).any (fun c => isDescendantOf s0 f.id c)) = true :=
              List.any_eq_true.mpr ⟨c, hc, hdc⟩
            simp [hany]

/-! ### countFolderItems counts exactly the subtree (towards C7) -/

theorem countP_or_disjoint {β : Type} (l : List β) (p q : β → Bool)
    (h : ∀ x ∈ l, ¬(p x = true ∧ q x = true)) :
    l.countP (fun x => p x || q x) = l.countP p + l.countP q := by
  induction l with
  | nil => rfl
  | cons a t ih =>
    have ht : ∀ x ∈ t, ¬(p x = true ∧ q x = true) :=
      fun x hx => h x (List.mem_cons_of_mem a hx)
    rw [List.countP_cons, List.countP_cons, List.countP_cons, ih ht]
    rcases hp : p a with _ | _ <;> rcases hq : q a with _ | _
    · simp
    · simp
      omega
    · simp
      omega
    · exact absurd ⟨hp, hq⟩ (h a (List.mem_cons_self a t))

theorem countP_split {β : Type} (l : List β) (p q : β → Bool) :
    l.countP p = l.countP (fun x => p x && q x) + l.countP (fun x => p x && !q x) := by
  induction l with
  | nil => rfl
  | cons a t ih =>
    rw [List.countP_cons, List.countP_cons, List.countP_cons, ih]
    rcases hp : p a with _ | _ <;> rcases hq : q a with _ | _ <;> simp [hp, hq] <;> omega

theorem countP_id_one {β : Type} (l : List β) (g : β → Nat) (hnd : (l.map g).Nodup)
    {a : β} (ha : a ∈ l) : l.countP (fun x => decide (g x = g a)) = 1 := by
  induction l with
  | nil => cases ha
  | cons b t ih =>
    have hnd2 := hnd
    rw [List.map_cons, List.nodup_cons] at hnd2
    rcases List.mem_cons.mp ha with rfl | hat
    · rw [List.countP_cons_of_pos _ _ (by simp)]
      have hzero : t.countP (fun x => decide (g x = g a)) = 0 := by
        rw [List.countP_eq_zero]
        intro x hx
        simp only [decide_eq_true_eq]
        intro he
        exact hnd2.1 (he ▸ List.mem_map_of_mem g hx)
      omega
    · have hba : g b ≠ g a := by
        intro he
        exact hnd2.1 (he ▸ List.mem_map_of_mem g hat)
      rw [List.countP_cons_of_neg _ _ (by simp [hba]), ih hnd2.2 hat]

theorem foldl_count_shift (folders : List BookmarkFolder) (bookmarks : List Bookmark)
    (m : Nat) (l : List BookmarkFolder) :
    ∀ a : Nat,
      l.foldl (fun acc sf => acc + 1 + countGo folders bookmarks m sf.id) a =
        a + (l.map (fun sf => 1 + countGo folders bookmarks m sf.id)).sum := by
  induction l with
  | nil => intro a; simp
  | cons x t ih =>
    intro a
    rw [List.foldl_cons, ih]
    simp [List.sum_cons]
    omega

theorem sum_map_add {β : Type} (f g : β → Nat) (l : List β) :
    (l.map (fun x => f x + g x)).sum = (l.map f).sum + (l.map g).sum := by
  induction l with
  | nil => rfl
  | cons x t ih =>
    simp [List.sum_cons, ih]
    omega

theorem countGo_succ (folders : List BookmarkFolder) (bookmarks : List Bookmark)
    (m fid : Nat) :
    countGo folders bookmarks (m + 1) fid =
      (folders.filter (fun f => decide (f.parentId = some fid))).foldl
        (fun acc sf => acc + 1 + countGo folders bookmarks m sf.id)
        ((bookmarks.filter (fun b => decide (b.parentId = some fid))).length) := rfl

theorem countGo_spec (s0 : BState) (rank : Nat → Nat) (hr : FRanked s0.folders rank)
    (hnd0 : (s0.folders.map (fun f => f.id)).Nodup) :
    ∀ (fuel r : Nat),
      s0.folders.length + 1 ≤ fuel + rank r →
      1 ≤ fuel →
      countGo s0.folders s0.bookmarks fuel r =
        s0.bookmarks.countP (fun b => bookmarkRemoved s0 r b) +
          s0.folders.countP (fun f => folderRemoved s0 r f && decide (f.id ≠ r)) := by
  have hbridge : ∀ x z : Nat, isDescendantOf s0 x z = true ↔ FReaches s0.folders x z :=
    fun x z => chainHits_iff_reaches (fun f : BookmarkFolder => f.id)
      (fun f => f.parentId) hr x z
  intro fuel
  induction fuel with
  | zero =>
    intro r _ h1
    omega
  | succ m ih =>
    intro r hfuel _
    -- facts about the children of r (all computed in s0 itself)
    have hsubs_elim : ∀ c ∈ (s0.folders.filter
        (fun f => decide (f.parentId = some r))).map (fun f => f.id),
        ∃ fc, fc ∈ s0.folders ∧ fc.id = c ∧ fc.parentId = some r := by
      intro c hc
      rcases List.mem_map.mp hc with ⟨fc, hfc, hfcid⟩
      exact ⟨fc, List.mem_filter.mp hfc |>.1, hfcid, by
        have := List.mem_filter.mp hfc |>.2
        simpa using this⟩
    have hchild_par : ∀ c ∈ (s0.folders.filter
        (fun f => decide (f.parentId = some r))).map (fun f => f.id),
        parentOf (fun f : BookmarkFolder => f.id) (fun f => f.parentId) s0.folders c
          = some r := by
      intro c hc
      rcases hsubs_elim c hc with ⟨fc, hfcs, hfcid, hfcpar⟩
      unfold parentOf
      rw [findNode_unique (fun f : BookmarkFolder => f.id) hnd0 hfcs hfcid]
      simpa using hfcpar
    have hchild_rank : ∀ c ∈ (s0.folders.filter
        (fun f => decide (f.parentId = some r))).map (fun f => f.id),
        rank r < rank c ∧ rank c < s0.folders.length := by
      intro c hc
      rcases hsubs_elim c hc with ⟨fc, hfcs, hfcid, hfcpar⟩
      constructor
      · have h1 : rank r < rank fc.id := hr.2 fc hfcs r hfcpar
        rwa [hfcid] at h1
      · have h2 : rank fc.id < s0.folders.length := hr.1 fc hfcs
        rwa [hfcid] at h2
    have hsubs_nodup : ((s0.folders.filter
        (fun f => decide (f.parentId = some r))).map (fun f => f.id)).Nodup := by
      apply List.Nodup.sublist _ hnd0
      exact List.Sublist.map _ (List.filter_sublist _)
    have hdec : ∀ x : Nat, isDescendantOf s0 x r = true ↔
        (x = r ∨ ∃ c ∈ (s0.folders.filter
          (fun f => decide (f.parentId = some r))).map (fun f => f.id),
          isDescendantOf s0 x c = true) := by
      intro x
      rw [hbridge]
      constructor
      · intro h
        rcases (reaches_subtree_decomp (fun f : BookmarkFolder => f.id)
            (fun f => f.parentId) s0.folders x r).mp h with h1 | ⟨c, hpc, hxc⟩
        · exact Or.inl h1
        · obtain ⟨g0, hg0, hg0id, hg0par⟩ := parentOf_eq_some _ _ hpc
          refine Or.inr ⟨c, List.mem_map.mpr ⟨g0, List.mem_filter.mpr
            ⟨hg0, by simp [hg0par]⟩, hg0id⟩, (hbridge x c).mpr hxc⟩
      · rintro (rfl | ⟨c, hc, hxc⟩)
        · exact Reaches.refl x
        · exact reaches_trans _ _ ((hbridge x c).mp hxc)
            (reaches_of_parent _ _ (hchild_par c hc))
    -- sums over the disjoint child subtrees
    have hsumB : ∀ cs : List Nat,
        (∀ c ∈ cs, parentOf (fun f : BookmarkFolder => f.id) (fun f => f.parentId)
          s0.folders c = some r) →
        cs.Nodup →
        s0.bookmarks.countP (fun b => bookmarkRemovedAny s0 cs b) =
          (cs.map (fun c => s0.bookmarks.countP (fun b => bookmarkRemoved s0 c b))).sum := by
      intro cs
      induction cs with
      | nil =>
        intro _ _
        rw [List.countP_eq_zero.mpr (fun b _ => by simp [bookmarkRemovedAny_nil])]
        simp
      | cons c cs ihcs =>
        intro hpar hnodup
        have heq : (fun b => bookmarkRemovedAny s0 (c :: cs) b) =
            fun b => bookmarkRemoved s0 c b || bookmarkRemovedAny s0 cs b :=
          funext (bookmarkRemovedAny_cons s0 c cs)
        rw [heq, countP_or_disjoint]
        · rw [ihcs (fun c2 hc2 => hpar c2 (List.mem_cons_of_mem c hc2))
            (List.nodup_cons.mp hnodup).2]
          simp
        · intro b _ hcon
          obtain ⟨h1, h2⟩ := hcon
          unfold bookmarkRemoved at h1
          unfold bookmarkRemovedAny at h2
          rcases hbp : b.parentId with _ | p
          · rw [hbp] at h1; cases h1
          · rw [hbp] at h1 h2
            rcases List.any_eq_true.mp h2 with ⟨c2, hc2, hdc2⟩
            have hne : c ≠ c2 := by
              intro he
              exact (List.nodup_cons.mp hnodup).1 (he ▸ hc2)
            exact sibling_subtrees_disjoint _ _ hr
              (hpar c (List.mem_cons_self c cs))
              (hpar c2 (List.mem_cons_of_mem c hc2)) hne
              ((hbridge p c).mp h1) ((hbridge p c2).mp hdc2)
    have hsumF : ∀ cs : List Nat,
        (∀ c ∈ cs, parentOf (fun f : BookmarkFolder => f.id) (fun f => f.parentId)
          s0.folders c = some r) →
        cs.Nodup →
        s0.folders.countP (fun f => folderRemovedAny s0 cs f) =
          (cs.map (fun c => s0.folders.countP (fun f => folderRemoved s0 c f))).sum := by
      intro cs
      induction cs with
      | nil =>
        intro _ _
        rw [List.countP_eq_zero.mpr (fun f _ => by simp [folderRemovedAny_nil])]
        simp
      | cons c cs ihcs =>
        intro hpar hnodup
        have heq : (fun f => folderRemovedAny s0 (c :: cs) f) =
            fun f => folderRemoved s0 c f || folderRemovedAny s0 cs f :=
          funext (folderRemovedAny_cons s0 c cs)
        rw [heq, countP_or_disjoint]
        · rw [ihcs (fun c2 hc2 => hpar c2 (List.mem_cons_of_mem c hc2))
            (List.nodup_cons.mp hnodup).2]
          simp
        · intro f _ hcon
          obtain ⟨h1, h2⟩ := hcon
          unfold folderRemoved at h1
          unfold folderRemovedAny at h2
          rcases List.any_eq_true.mp h2 with ⟨c2, hc2, hdc2⟩
          have hne : c ≠ c2 := by
            intro he
            exact (List.nodup_cons.mp hnodup).1 (he ▸ hc2)
          exact sibling_subtrees_disjoint _ _ hr
            (hpar c (List.mem_cons_self c cs))
            (hpar c2 (List.mem_cons_of_mem c hc2)) hne
            ((hbridge f.id c).mp h1) ((hbridge f.id c2).mp hdc2)
    -- pointwise characterizations at level r
    have hpointB : ∀ b : Bookmark, bookmarkRemoved s0 r b =
        (decide (b.parentId = some r) ||
          bookmarkRemovedAny s0 ((s0.folders.filter
            (fun f => decide (f.parentId = some r))).map (fun f => f.id)) b) := by
      intro b
      unfold bookmarkRemoved bookmarkRemovedAny
      rcases hbp : b.parentId with _ | p
      · simp
      · dsimp only
        rcases hd : isDescendantOf s0 p r with _ | _
        · have hpr : ¬(p = r) := by
            intro he
            have := (hdec p).mpr (Or.inl he)
            rw [hd] at this
            cases this
          have hany : (((s0.folders.filter (fun f => decide (f.parentId = some r))).map
              (fun f => f.id)).any (fun c => isDescendantOf s0 p c)) = false := by
            rw [List.any_eq_false]
            intro c hc
            rcases hdc : isDescendantOf s0 p c with _ | _
            · simp
            · exfalso
              have := (hdec p).mpr (Or.inr ⟨c, hc, hdc⟩)
              rw [hd] at this
              cases this
          simp [hany, hpr]
        · rcases (hdec p).mp hd with he | ⟨c, hc, hdc⟩
          · simp [he]
          · have hany : (((s0.folders.filter (fun f => decide (f.parentId = some r))).map
                (fun f => f.id)).any (fun c => isDescendantOf s0 p c)) = true :=
              List.any_eq_true.mpr ⟨c, hc, hdc⟩
            simp [hany]
    have hnochild_r : ∀ c ∈ (s0.folders.filter
        (fun f => decide (f.parentId = some r))).map (fun f => f.id),
        isDescendantOf s0 r c = false := by
      intro c hc
      rcases hdc : isDescendantOf s0 r c with _ | _
      · rfl
      · exfalso
        exact reaches_strict_rank _ _ hr (hchild_par c hc) ((hbridge r c).mp hdc)
    have hpointF : ∀ f : BookmarkFolder,
        (folderRemoved s0 r f && decide (f.id ≠ r)) =
          folderRemovedAny s0 ((s0.folders.filter
            (fun g => decide (g.parentId = some r))).map (fun g => g.id)) f := by
      intro f
      unfold folderRemoved folderRemovedAny
      by_cases hfr : f.id = r
      · have hany : (((s0.folders.filter (fun g => decide (g.parentId = some r))).map
            (fun g => g.id)).any (fun c => isDescendantOf s0 r c)) = false := by
          simp only [List.any_eq_false]
          intro c hc
          simp [hnochild_r c hc]
        simp [hfr, hany]
      · rcases hd : isDescendantOf s0 f.id r with _ | _
        · have hany : (((s0.folders.filter (fun g => decide (g.parentId = some r))).map
              (fun g => g.id)).any (fun c => isDescendantOf s0 f.id c)) = false := by
            rw [List.any_eq_false]
            intro c hc
            rcases hdc : isDescendantOf s0 f.id c with _ | _
            · simp
            · exfalso
              have := (hdec f.id).mpr (Or.inr ⟨c, hc, hdc⟩)
              rw [hd] at this
              cases this
          simp [hany, hfr]
        · rcases (hdec f.id).mp hd with he | ⟨c, hc, hdc⟩
          · exact absurd he hfr
          · have hany : (((s0.folders.filter (fun g => decide (g.parentId = some r))).map
                (fun g => g.id)).any (fun c => isDescendantOf s0 f.id c)) = true :=
              List.any_eq_true.mpr ⟨c, hc, hdc⟩
            simp [hany, hfr]
    -- per-child: the subtree folder count includes the child itself
    have hgF : ∀ sf ∈ s0.folders.filter (fun f => decide (f.parentId = some r)),
        s0.folders.countP (fun f => folderRemoved s0 sf.id f) =
          1 + s0.folders.countP
            (fun f => folderRemoved s0 sf.id f && decide (f.id ≠ sf.id)) := by
      intro sf hsf
      have hsf0 : sf ∈ s0.folders := List.mem_of_mem_filter hsf
      have hsplit := countP_split s0.folders (fun f => folderRemoved s0 sf.id f)
        (fun f => decide (f.id = sf.id))
      have hone : s0.folders.countP
          (fun f => folderRemoved s0 sf.id f && decide (f.id = sf.id)) = 1 := by
        have h1 : s0.folders.countP (fun f => decide (f.id = sf.id)) = 1 := by
          have h2 := countP_id_one s0.folders (fun f => f.id) hnd0 hsf0
          simpa using h2
        rw [← h1]
        apply List.countP_congr
        intro f _
        by_cases hfe : f.id = sf.id
        · have : folderRemoved s0 sf.id f = true := by
            unfold folderRemoved
            rw [hfe]
            exact (hbridge sf.id sf.id).mpr (Reaches.refl sf.id)
          simp [hfe, this]
        · simp [hfe]
      have hsame : s0.folders.countP
          (fun f => folderRemoved s0 sf.id f && !(decide (f.id = sf.id))) =
            s0.folders.countP
              (fun f => folderRemoved s0 sf.id f && decide (f.id ≠ sf.id)) := by
        apply List.countP_congr
        intro f _
        simp
      omega
    -- evaluate the recursive calls with the induction hypothesis
    have hchild_eval : ∀ sf ∈ s0.folders.filter (fun f => decide (f.parentId = some r)),
        1 + countGo s0.folders s0.bookmarks m sf.id =
          s0.bookmarks.countP (fun b => bookmarkRemoved s0 sf.id b) +
            s0.folders.countP (fun f => folderRemoved s0 sf.id f) := by
      intro sf hsf
      have hid : sf.id ∈ (s0.folders.filter
          (fun f => decide (f.parentId = some r))).map (fun f => f.id) :=
        List.mem_map_of_mem _ hsf
      have hrk := hchild_rank sf.id hid
      rw [ih sf.id (by omega) (by omega), hgF sf hsf]
      omega
    -- assemble
    rw [countGo_succ, foldl_count_shift s0.folders s0.bookmarks m]
    rw [List.map_congr_left hchild_eval, sum_map_add]
    have hB : s0.bookmarks.countP (fun b => bookmarkRemoved s0 r b) =
        (s0.bookmarks.filter (fun b => decide (b.parentId = some r))).length +
          ((s0.folders.filter (fun f => decide (f.parentId = some r))).map
            (fun sf => s0.bookmarks.countP (fun b => bookmarkRemoved s0 sf.id b))).sum := by
      rw [List.countP_congr (fun b _ => by rw [hpointB b])]
      rw [countP_or_disjoint]
      · rw [← List.countP_eq_length_filter]
        congr 1
        rw [hsumB _ hchild_par hsubs_nodup, List.map_map]
        rfl
      · intro b _ hcon
        obtain ⟨h1, h2⟩ := hcon
        simp only [decide_eq_true_eq] at h1
        unfold bookmarkRemovedAny at h2
        rw [h1] at h2
        rcases List.any_eq_true.mp h2 with ⟨c, hc, hdc⟩
        rw [hnochild_r c hc] at hdc
        cases hdc
    have hF : s0.folders.countP (fun f => folderRemoved s0 r f && decide (f.id ≠ r)) =
        ((s0.folders.filter (fun f => decide (f.parentId = some r))).map
          (fun sf => s0.folders.countP (fun f => folderRemoved s0 sf.id f))).sum := by
      rw [List.countP_congr (fun f _ => by rw [hpointF f])]
      rw [hsumF _ hchild_par hsubs_nodup, List.map_map]
      rfl
    rw [hB, hF]
    omega

/-! ### Claim theorem: cascade folder deletion and its count (C7) -/

theorem normalizeGroup_bookmarks_idpar (s : BState) (p : Option Nat) :
    (normalizeGroup s p).bookmarks.map (fun b => (b.id, b.parentId)) =
      s.bookmarks.map (fun b => (b.id, b.parentId)) := by
  unfold normalizeGroup
  dsimp only
  rw [List.map_map]
  apply List.map_congr_left
  intro b _
  by_cases hb : b.parentId = p <;> simp [hb, Function.comp]

theorem normalizeGroup_folders_idpar (s : BState) (p : Option Nat) :
    (normalizeGroup s p).folders.map (fun f => (f.id, f.parentId)) =
      s.folders.map (fun f => (f.id, f.parentId)) := by
  unfold normalizeGroup
  dsimp only
  rw [List.map_map]
  apply List.map_congr_left
  intro f _
  by_cases hf : f.parentId = p <;> simp [hf, Function.comp]

/-- C7: deleting folder `F` removes (up to the order-only renumbering of the
former parent's siblings) exactly `F`, the folders of `F`'s subtree, and the
bookmarks whose parent lies in that subtree, and nothing else; and the
`countFolderItems` value computed before the deletion is exactly the number of
removed nodes not counting `F` itself. -/
theorem claim7_cascade_delete (s : BState) (rank : Nat → Nat) (F : BookmarkFolder)
    (hr : FRanked s.folders rank) (hnd : (allIds s).Nodup) (hF : F ∈ s.folders) :
    ((deleteFolder s F.id).folders.map (fun f => (f.id, f.parentId)) =
        (s.folders.filter (fun f => !(folderRemoved s F.id f))).map
          (fun f => (f.id, f.parentId))) ∧
      ((deleteFolder s F.id).bookmarks.map (fun b => (b.id, b.parentId)) =
        (s.bookmarks.filter (fun b => !(bookmarkRemoved s F.id b))).map
          (fun b => (b.id, b.parentId))) ∧
      folderRemoved s F.id F = true ∧
      countFolderItems s F.id + 1 =
        s.bookmarks.countP (fun b => bookmarkRemoved s F.id b) +
          s.folders.countP (fun f => folderRemoved s F.id f) := by
  obtain ⟨hfnd, _, _⟩ := allIds_parts s hnd
  have hfsome : s.folders.find? (fun f => decide (f.id = F.id)) = some F :=
    findNode_unique (fun f : BookmarkFolder => f.id) hfnd hF rfl
  have hdfr := dfr_spec s rank hr hfnd (s.folders.length + 1) F.id s
    (fun f hf => hf) hfnd (fun g hg _ => hg) (by omega) (by omega)
  have hdel : deleteFolder s F.id =
      normalizeGroup
        { bookmarks := s.bookmarks.filter (fun b => !(bookmarkRemoved s F.id b)),
          folders := s.folders.filter (fun f => !(folderRemoved s F.id f)) } F.parentId := by
    unfold deleteFolder
    rw [hfsome, hdfr]
  refine ⟨?_, ?_, ?_, ?_⟩
  · rw [hdel, normalizeGroup_folders_idpar]
  · rw [hdel, normalizeGroup_bookmarks_idpar]
  · unfold folderRemoved
    exact (chainHits_iff_reaches (fun f : BookmarkFolder => f.id) (fun f => f.parentId)
      hr F.id F.id).mpr (Reaches.refl F.id)
  · have hcount := countGo_spec s rank hr hfnd (s.folders.length + 1) F.id
      (by omega) (by omega)
    have hsplit := countP_split s.folders (fun f => folderRemoved s F.id f)
      (fun f => decide (f.id = F.id))
    have hone : s.folders.countP
        (fun f => folderRemoved s F.id f && decide (f.id = F.id)) = 1 := by
      have h1 : s.folders.countP (fun f => decide (f.id = F.id)) = 1 := by
        have h2 := countP_id_one s.folders (fun f => f.id) hfnd hF
        simpa using h2
      rw [← h1]
      apply List.countP_congr
      intro f _
      by_cases hfe : f.id = F.id
      · have hft : folderRemoved s F.id f = true := by
          unfold folderRemoved
          rw [hfe]
          exact (chainHits_iff_reaches (fun g : BookmarkFolder => g.id)
            (fun g => g.parentId) hr F.id F.id).mpr (Reaches.refl F.id)
        simp [hfe, hft]
      · simp [hfe]
    have hsame : s.folders.countP
        (fun f => folderRemoved s F.id f && !(decide (f.id = F.id))) =
          s.folders.countP (fun f => folderRemoved s F.id f && decide (f.id ≠ F.id)) := by
      apply List.countP_congr
      intro f _
      simp
    unfold countFolderItems
    omega

/-- Witness for C7 at a concrete store: deleting root folder 1 of the chain
1 ← 2 ← 3 removes folders 1, 2, 3 and the bookmark inside folder 2, keeps the
root bookmark, and `countFolderItems` is 3 (= 4 removed nodes minus folder 1). -/
theorem claim7_witness :
    (((deleteFolder c7State 1).folders.map (fun f => (f.id, f.parentId)) =
        (c7State.folders.filter (fun f => !(folderRemoved c7State 1 f))).map
          (fun f => (f.id, f.parentId))) ∧
      ((deleteFolder c7State 1).bookmarks.map (fun b => (b.id, b.parentId)) =
        (c7State.bookmarks.filter (fun b => !(bookmarkRemoved c7State 1 b))).map
          (fun b => (b.id, b.parentId))) ∧
      folderRemoved c7State 1 (exFolder 1 0 none) = true ∧
      countFolderItems c7State 1 + 1 =
        c7State.bookmarks.countP (fun b => bookmarkRemoved c7State 1 b) +
          c7State.folders.countP (fun f => folderRemoved c7State 1 f)) :=
  claim7_cascade_delete c7State (fun x => x - 1) (exFolder 1 0 none)
    (by decide) (by decide) (by decide)

/-! ### updateFirst as a map under unique ids -/

theorem updateFirst_folders_eq_map (l : List BookmarkFolder)
    (hnd : (l.map (fun f => f.id)).Nodup) (tid : Nat) (f : BookmarkFolder → BookmarkFolder) :
    updateFirst (fun x => decide (x.id = tid)) f l =
      l.map (fun x => if x.id = tid then f x else x) := by
  induction l with
  | nil => rfl
  | cons b bs ih =>
    have hnd2 := hnd
    rw [List.map_cons, List.nodup_cons] at hnd2
    by_cases hb : b.id = tid
    · unfold updateFirst
      rw [if_pos (by simp [hb]), List.map_cons, if_pos hb]
      congr 1
      have hbs : ∀ x ∈ bs, (if x.id = tid then f x else x) = x := by
        intro x hx
        rw [if_neg]
        intro he
        exact hnd2.1 (hb ▸ he ▸ List.mem_map_of_mem (fun g => g.id) hx)
      rw [List.map_congr_left hbs]
      simp
    · unfold updateFirst
      rw [if_neg (by simp [hb]), List.map_cons, if_neg hb, ih hnd2.2]

theorem updateFirst_bookmarks_eq_map (l : List Bookmark)
    (hnd : (l.map (fun b => b.id)).Nodup) (tid : Nat) (f : Bookmark → Bookmark) :
    updateFirst (fun x => decide (x.id = tid)) f l =
      l.map (fun x => if x.id = tid then f x else x) := by
  induction l with
  | nil => rfl
  | cons b bs ih =>
    have hnd2 := hnd
    rw [List.map_cons, List.nodup_cons] at hnd2
    by_cases hb : b.id = tid
    · unfold updateFirst
      rw [if_pos (by simp [hb]), List.map_cons, if_pos hb]
      congr 1
      have hbs : ∀ x ∈ bs, (if x.id = tid then f x else x) = x := by
        intro x hx
        rw [if_neg]
        intro he
        exact hnd2.1 (hb ▸ he ▸ List.mem_map_of_mem (fun g => g.id) hx)
      rw [List.map_congr_left hbs]
      simp
    · unfold updateFirst
      rw [if_neg (by simp [hb]), List.map_cons, if_neg hb, ih hnd2.2]

/-! ### Claim theorem: folder-move depth guard (C6, amended) -/

/-- C6 (amended): for a folder `F`, `moveToFolder` throws exactly the depth
message iff the destination is a folder `t`, the cycle guard does not fire
first, and `getFolderDepth(t) + getMaxFolderDepth(F) > 3`; on that failure the
store is unchanged. Moving to the root is never depth-checked and never fails.
On success the folder is reparented to the target and carries an order
strictly above every other member of the target's combined sibling group
(appended at the end). -/
theorem claim6_amended (s : BState) (F : BookmarkFolder)
    (hnd : (allIds s).Nodup) (hF : F ∈ s.folders) :
    (∀ t : Nat,
      ((moveToFolder s F.id (some t)).1 = some depthMsg ↔
        isDescendantOf s t F.id = false ∧
          3 < getFolderDepth s t + getMaxFolderDepth s F.id) ∧
      ((moveToFolder s F.id (some t)).1 = some depthMsg →
        (moveToFolder s F.id (some t)).2 = s)) ∧
    (moveToFolder s F.id none).1 = none ∧
    (∀ t : Option Nat, (moveToFolder s F.id t).1 = none →
      ∃ f', f' ∈ (moveToFolder s F.id t).2.folders ∧ f'.id = F.id ∧ f'.parentId = t ∧
        ∀ e ∈ getFolderSiblings (moveToFolder s F.id t).2 t,
          Entry.eid e ≠ F.id → Entry.eorder e < f'.order) := by
  obtain ⟨hfnd, _, hdisj⟩ := allIds_parts s hnd
  have hbnone : s.bookmarks.find? (fun b => decide (b.id = F.id)) = none := by
    rw [List.find?_eq_none]
    intro b hb
    simp only [decide_eq_true_eq]
    intro e
    exact hdisj F.id (List.mem_map_of_mem _ hF) (e ▸ List.mem_map_of_mem _ hb)
  have hfsome : s.folders.find? (fun f => decide (f.id = F.id)) = some F :=
    findNode_unique (fun f : BookmarkFolder => f.id) hfnd hF rfl
  -- properties of the successful core move, for any destination
  have hcore : ∀ tgt : Option Nat,
      ∃ f', f' ∈ (moveEntryCore s false F.id F.parentId tgt).folders ∧
        f'.id = F.id ∧ f'.parentId = tgt ∧
        f'.order = newOrder (getFolderSiblings s tgt) ∧
        ∀ e ∈ getFolderSiblings (moveEntryCore s false F.id F.parentId tgt) tgt,
          Entry.eid e ≠ F.id → Entry.eorder e < newOrder (getFolderSiblings s tgt) := by
    intro tgt
    have hs1 : ∀ e ∈ getFolderSiblings ⟨s.bookmarks, s.folders.map (fun x => if x.id = F.id then { x with parentId := tgt, order := newOrder (getFolderSiblings s tgt) } else x)⟩ tgt, Entry.eid e ≠ F.id → Entry.eorder e < newOrder (getFolderSiblings s tgt) := by
      intro e he hne
      unfold getFolderSiblings at he
      dsimp only at he
      rcases List.mem_append.mp he with hel | her
      · rcases List.mem_map.mp hel with ⟨g, hg, rfl⟩
        rcases List.mem_filter.mp hg with ⟨hgm, hgp⟩
        rcases List.mem_map.mp hgm with ⟨x, hx, rfl⟩
        by_cases hxF : x.id = F.id
        · rw [if_pos hxF] at hne hgp ⊢
          exact absurd hxF (by simpa using hne)
        · rw [if_neg hxF] at hne hgp ⊢
          have hxs : Sum.inl x ∈ getFolderSiblings s tgt := by
            unfold getFolderSiblings
            exact List.mem_append.mpr (Or.inl
              (List.mem_map.mpr ⟨x, List.mem_filter.mpr ⟨hx, hgp⟩, rfl⟩))
          simpa using newOrder_gt (getFolderSiblings s tgt) (Sum.inl x) hxs
      · rcases List.mem_map.mp her with ⟨b, hb, rfl⟩
        have hbs : Sum.inr b ∈ getFolderSiblings s tgt := by
          unfold getFolderSiblings
          exact List.mem_append.mpr (Or.inr (List.mem_map.mpr ⟨b, hb, rfl⟩))
        simpa using newOrder_gt (getFolderSiblings s tgt) (Sum.inr b) hbs
    refine ⟨{ F with parentId := tgt, order := newOrder (getFolderSiblings s tgt) },
      ?_, rfl, rfl, rfl, ?_⟩
    · unfold moveEntryCore
      dsimp only
      rw [updateFirst_folders_eq_map s.folders hfnd F.id]
      by_cases hsrc : F.parentId ≠ tgt
      · rw [if_pos hsrc]
        unfold normalizeGroup
        dsimp only
        refine List.mem_map.mpr
          ⟨{ F with parentId := tgt, order := newOrder (getFolderSiblings s tgt) }, ?_, ?_⟩
        · exact List.mem_map.mpr ⟨F, hF, by simp⟩
        · rw [if_neg (fun he => hsrc (Eq.symm he))]
      · rw [if_neg hsrc]
        exact List.mem_map.mpr ⟨F, hF, by simp⟩
    · unfold moveEntryCore
      dsimp only
      rw [updateFirst_folders_eq_map s.folders hfnd F.id]
      by_cases hsrc : F.parentId ≠ tgt
      · rw [if_pos hsrc]
        intro e he hne
        rw [normalizeGroup_siblings_ne _ _ _ (fun he2 => hsrc he2.symm)] at he
        exact hs1 e he hne
      · rw [if_neg hsrc]
        exact hs1
  refine ⟨?_, ?_, ?_⟩
  · intro t
    have hred : moveToFolder s F.id (some t) =
        (if isDescendantOf s t F.id = true then (some cycleMsg, s)
          else if getFolderDepth s t + getMaxFolderDepth s F.id > 3 then (some depthMsg, s)
          else (none, moveEntryCore s false F.id F.parentId (some t))) := by
      unfold moveToFolder
      rw [hbnone, hfsome]
    constructor
    · constructor
      · intro herr
        rw [hred] at herr
        by_cases hdesc : isDescendantOf s t F.id = true
        · rw [if_pos hdesc] at herr
          dsimp only at herr
          exfalso
          have hmsg : cycleMsg = depthMsg := by
            injection herr
          exact absurd hmsg (by decide)
        · rw [if_neg hdesc] at herr
          have hdfalse : isDescendantOf s t F.id = false := by
            rcases h2 : isDescendantOf s t F.id with _ | _
            · rfl
            · exact absurd h2 hdesc
          by_cases hdepth : 3 < getFolderDepth s t + getMaxFolderDepth s F.id
          · exact ⟨hdfalse, hdepth⟩
          · rw [if_neg (by omega)] at herr
            dsimp only at herr
            cases herr
      · rintro ⟨hdesc, hdepth⟩
        rw [hred, if_neg (by simp [hdesc]), if_pos (by omega)]
    · intro herr
      rw [hred] at herr ⊢
      by_cases hdesc : isDescendantOf s t F.id = true
      · rw [if_pos hdesc] at herr
        dsimp only at herr
        exfalso
        have hmsg : cycleMsg = depthMsg := by
          injection herr
        exact absurd hmsg (by decide)
      · rw [if_neg hdesc] at herr ⊢
        by_cases hdepth : 3 < getFolderDepth s t + getMaxFolderDepth s F.id
        · rw [if_pos (by omega)]
        · rw [if_neg (by omega)] at herr
          dsimp only at herr
          cases herr
  · unfold moveToFolder
    rw [hbnone, hfsome]
  · intro t hsucc
    cases t with
    | none =>
      have hmv : moveToFolder s F.id none =
          (none, moveEntryCore s false F.id F.parentId none) := by
        unfold moveToFolder
        rw [hbnone, hfsome]
      rcases hcore none with ⟨f', h1, h2, h3, h4, h5⟩
      refine ⟨f', by rw [hmv]; exact h1, h2, h3, ?_⟩
      rw [hmv]
      dsimp only
      rw [h4]
      exact h5
    | some tv =>
      have hred : moveToFolder s F.id (some tv) =
          (if isDescendantOf s tv F.id = true then (some cycleMsg, s)
            else if getFolderDepth s tv + getMaxFolderDepth s F.id > 3 then (some depthMsg, s)
            else (none, moveEntryCore s false F.id F.parentId (some tv))) := by
        unfold moveToFolder
        rw [hbnone, hfsome]
      by_cases hdesc : isDescendantOf s tv F.id = true
      · exfalso
        rw [hred, if_pos hdesc] at hsucc
        dsimp only at hsucc
        cases hsucc
      · by_cases hdepth : 3 < getFolderDepth s tv + getMaxFolderDepth s F.id
        · exfalso
          rw [hred, if_neg hdesc, if_pos (by omega)] at hsucc
          dsimp only at hsucc
          cases hsucc
        · have hmv : moveToFolder s F.id (some tv) =
              (none, moveEntryCore s false F.id F.parentId (some tv)) := by
            rw [hred, if_neg hdesc, if_neg (by omega)]
          rcases hcore (some tv) with ⟨f', h1, h2, h3, h4, h5⟩
          refine ⟨f', by rw [hmv]; exact h1, h2, h3, ?_⟩
          rw [hmv]
          dsimp only
          rw [h4]
          exact h5

/-- Witness for C6 (amended) at the two-folder store: for folder 1 the
depth-error characterization, the unchanged-on-failure property, the
root-move success and the append-at-end property all hold. -/
theorem claim6_amended_witness :
    (∀ t : Nat,
      ((moveToFolder c6StateB 1 (some t)).1 = some depthMsg ↔
        isDescendantOf c6StateB t 1 = false ∧
          3 < getFolderDepth c6StateB t + getMaxFolderDepth c6StateB 1) ∧
      ((moveToFolder c6StateB 1 (some t)).1 = some depthMsg →
        (moveToFolder c6StateB 1 (some t)).2 = c6StateB)) ∧
    (moveToFolder c6StateB 1 none).1 = none ∧
    (∀ t : Option Nat, (moveToFolder c6StateB 1 t).1 = none →
      ∃ f', f' ∈ (moveToFolder c6StateB 1 t).2.folders ∧ f'.id = 1 ∧ f'.parentId = t ∧
        ∀ e ∈ getFolderSiblings (moveToFolder c6StateB 1 t).2 t,
          Entry.eid e ≠ 1 → Entry.eorder e < f'.order) :=
  claim6_amended c6StateB (exFolder 1 0 none) (by decide) (by decide)

/-! ### Density toolkit (towards C1) -/

theorem dense_nil : DenseOrders [] := by decide

theorem dense_of_perm {l m : List Nat} (h : l.Perm m) (hm : DenseOrders m) : DenseOrders l := by
  unfold DenseOrders at *
  rw [h.length_eq]
  exact h.trans hm

theorem dense_append_len {l : List Nat} (h : DenseOrders l) : DenseOrders (l ++ [l.length]) := by
  unfold DenseOrders at *
  have hlen : (l ++ [l.length]).length = l.length + 1 := by simp
  rw [hlen, List.range_succ]
  exact h.append (List.Perm.refl _)

theorem groupOrders_expand (s : BState) (p : Option Nat) :
    groupOrders s p =
      (s.folders.filter (fun f => decide (f.parentId = p))).map (fun f => f.order) ++
        (s.bookmarks.filter (fun b => decide (b.parentId = p))).map (fun b => b.order) := by
  unfold groupOrders getFolderSiblings
  rw [List.map_append, List.map_map, List.map_map]
  rfl

theorem newOrder_group (s : BState) (p : Option Nat) (h : DenseOrders (groupOrders s p)) :
    newOrder (getFolderSiblings s p) = (groupOrders s p).length := by
  have h2 := newOrder_eq_length (getFolderSiblings s p) h
  rw [h2]
  unfold groupOrders
  rw [List.length_map]

theorem filter_filter_of_imp {β : Type} (l : List β) (a b : β → Bool)
    (h : ∀ x ∈ l, b x = true → a x = true) :
    (l.filter a).filter b = l.filter b := by
  induction l with
  | nil => rfl
  | cons x xs ih =>
    have hx := h x (List.mem_cons_self x xs)
    have ihx := ih (fun y hy => h y (List.mem_cons_of_mem x hy))
    by_cases hax : a x = true
    · by_cases hbx : b x = true
      · rw [List.filter_cons_of_pos hax, List.filter_cons_of_pos hbx,
          List.filter_cons_of_pos hbx, ihx]
      · rw [List.filter_cons_of_pos hax, List.filter_cons_of_neg hbx,
          List.filter_cons_of_neg hbx, ihx]
    · have hbx : ¬ b x = true := fun hb => hax (hx hb)
      rw [List.filter_cons_of_neg hax, List.filter_cons_of_neg hbx, ihx]

theorem mem_id_unique {β : Type} (g : β → Nat) {l : List β} (hnd : (l.map g).Nodup)
    {x y : β} (hx : x ∈ l) (hy : y ∈ l) (he : g x = g y) : x = y := by
  induction l with
  | nil => cases hx
  | cons a tl ih =>
    rw [List.map_cons, List.nodup_cons] at hnd
    rcases List.mem_cons.mp hx with rfl | hx2
    · rcases List.mem_cons.mp hy with rfl | hy2
      · rfl
      · exact absurd (by rw [he]; exact List.mem_map_of_mem g hy2) hnd.1
    · rcases List.mem_cons.mp hy with rfl | hy2
      · exact absurd (by rw [← he]; exact List.mem_map_of_mem g hx2) hnd.1
      · exact ih hnd.2 hx2 hy2

theorem filter_bid_singleton {l : List Bookmark} (hnd : (l.map (fun x => x.id)).Nodup)
    {b : Bookmark} (hb : b ∈ l) {tid : Nat} (hid : b.id = tid) :
    l.filter (fun x => decide (x.id = tid)) = [b] := by
  induction l with
  | nil => cases hb
  | cons a tl ih =>
    rw [List.map_cons, List.nodup_cons] at hnd
    rcases List.mem_cons.mp hb with rfl | hb2
    · rw [List.filter_cons_of_pos (by simp [hid])]
      have htl : tl.filter (fun x => decide (x.id = tid)) = [] := by
        rw [List.filter_eq_nil_iff]
        intro y hy
        simp only [decide_eq_true_eq]
        intro he
        exact hnd.1 (by rw [hid, ← he]; exact List.mem_map_of_mem _ hy)
      rw [htl]
    · rw [List.filter_cons_of_neg, ih hnd.2 hb2]
      simp only [decide_eq_true_eq]
      intro he
      exact hnd.1 (by rw [he, ← hid]; exact List.mem_map_of_mem _ hb2)

theorem filter_fid_singleton {l : List BookmarkFolder} (hnd : (l.map (fun x => x.id)).Nodup)
    {f : BookmarkFolder} (hf : f ∈ l) {tid : Nat} (hid : f.id = tid) :
    l.filter (fun x => decide (x.id = tid)) = [f] := by
  induction l with
  | nil => cases hf
  | cons a tl ih =>
    rw [List.map_cons, List.nodup_cons] at hnd
    rcases List.mem_cons.mp hf with rfl | hf2
    · rw [List.filter_cons_of_pos (by simp [hid])]
      have htl : tl.filter (fun x => decide (x.id = tid)) = [] := by
        rw [List.filter_eq_nil_iff]
        intro y hy
        simp only [decide_eq_true_eq]
        intro he
        exact hnd.1 (by rw [hid, ← he]; exact List.mem_map_of_mem _ hy)
      rw [htl]
    · rw [List.filter_cons_of_neg, ih hnd.2 hf2]
      simp only [decide_eq_true_eq]
      intro he
      exact hnd.1 (by rw [he, ← hid]; exact List.mem_map_of_mem _ hf2)

theorem group_map_if_other_b (l : List Bookmark) (tid : Nat) (upd : Bookmark → Bookmark)
    (q : Option Nat)
    (h : ∀ x ∈ l, x.id = tid → (x.parentId ≠ q ∧ (upd x).parentId ≠ q)) :
    (l.map (fun x => if x.id = tid then upd x else x)).filter
        (fun x => decide (x.parentId = q)) =
      l.filter (fun x => decide (x.parentId = q)) := by
  induction l with
  | nil => rfl
  | cons a tl ih =>
    have iht := ih (fun y hy => h y (List.mem_cons_of_mem a hy))
    rw [List.map_cons]
    by_cases ha : a.id = tid
    · obtain ⟨h1, h2⟩ := h a (List.mem_cons_self a tl) ha
      rw [if_pos ha, List.filter_cons_of_neg (by simpa using h2),
        List.filter_cons_of_neg (by simpa using h1), iht]
    · rw [if_neg ha]
      by_cases hq : a.parentId = q
      · rw [List.filter_cons_of_pos (by simpa using hq),
          List.filter_cons_of_pos (by simpa using hq), iht]
      · rw [List.filter_cons_of_neg (by simpa using hq),
          List.filter_cons_of_neg (by simpa using hq), iht]

theorem group_map_if_other_f (l : List BookmarkFolder) (tid : Nat)
    (upd : BookmarkFolder → BookmarkFolder) (q : Option Nat)
    (h : ∀ x ∈ l, x.id = tid → (x.parentId ≠ q ∧ (upd x).parentId ≠ q)) :
    (l.map (fun x => if x.id = tid then upd x else x)).filter
        (fun x => decide (x.parentId = q)) =
      l.filter (fun x => decide (x.parentId = q)) := by
  induction l with
  | nil => rfl
  | cons a tl ih =>
    have iht := ih (fun y hy => h y (List.mem_cons_of_mem a hy))
    rw [List.map_cons]
    by_cases ha : a.id = tid
    · obtain ⟨h1, h2⟩ := h a (List.mem_cons_self a tl) ha
      rw [if_pos ha, List.filter_cons_of_neg (by simpa using h2),
        List.filter_cons_of_neg (by simpa using h1), iht]
    · rw [if_neg ha]
      by_cases hq : a.parentId = q
      · rw [List.filter_cons_of_pos (by simpa using hq),
          List.filter_cons_of_pos (by simpa using hq), iht]
      · rw [List.filter_cons_of_neg (by simpa using hq),
          List.filter_cons_of_neg (by simpa using hq), iht]

theorem group_map_if_target_b (l : List Bookmark) (tid : Nat) (upd : Bookmark → Bookmark)
    (tgt : Option Nat)
    (h : ∀ x ∈ l, x.id = tid → (x.parentId ≠ tgt ∧ (upd x).parentId = tgt)) :
    ((l.map (fun x => if x.id = tid then upd x else x)).filter
        (fun x => decide (x.parentId = tgt))).Perm
      (l.filter (fun x => decide (x.parentId = tgt)) ++
        (l.filter (fun x => decide (x.id = tid))).map upd) := by
  induction l with
  | nil => simp
  | cons a tl ih =>
    have iht := ih (fun y hy hyid => h y (List.mem_cons_of_mem a hy) hyid)
    rw [List.map_cons]
    by_cases ha : a.id = tid
    · obtain ⟨h1, h2⟩ := h a (List.mem_cons_self a tl) ha
      rw [if_pos ha, List.filter_cons_of_pos (by simpa using h2),
        List.filter_cons_of_neg (by simpa using h1),
        List.filter_cons_of_pos (by simpa using ha), List.map_cons]
      exact (iht.cons (upd a)).trans List.perm_middle.symm
    · rw [if_neg ha]
      by_cases hq : a.parentId = tgt
      · rw [List.filter_cons_of_pos (by simpa using hq),
          List.filter_cons_of_pos (by simpa using hq),
          List.filter_cons_of_neg (by simpa using ha), List.cons_append]
        exact iht.cons a
      · rw [List.filter_cons_of_neg (by simpa using hq),
          List.filter_cons_of_neg (by simpa using hq),
          List.filter_cons_of_neg (by simpa using ha)]
        exact iht

theorem group_map_if_target_f (l : List BookmarkFolder) (tid : Nat)
    (upd : BookmarkFolder → BookmarkFolder) (tgt : Option Nat)
    (h : ∀ x ∈ l, x.id = tid → (x.parentId ≠ tgt ∧ (upd x).parentId = tgt)) :
    ((l.map (fun x => if x.id = tid then upd x else x)).filter
        (fun x => decide (x.parentId = tgt))).Perm
      (l.filter (fun x => decide (x.parentId = tgt)) ++
        (l.filter (fun x => decide (x.id = tid))).map upd) := by
  induction l with
  | nil => simp
  | cons a tl ih =>
    have iht := ih (fun y hy hyid => h y (List.mem_cons_of_mem a hy) hyid)
    rw [List.map_cons]
    by_cases ha : a.id = tid
    · obtain ⟨h1, h2⟩ := h a (List.mem_cons_self a tl) ha
      rw [if_pos ha, List.filter_cons_of_pos (by simpa using h2),
        List.filter_cons_of_neg (by simpa using h1),
        List.filter_cons_of_pos (by simpa using ha), List.map_cons]
      exact (iht.cons (upd a)).trans List.perm_middle.symm
    · rw [if_neg ha]
      by_cases hq : a.parentId = tgt
      · rw [List.filter_cons_of_pos (by simpa using hq),
          List.filter_cons_of_pos (by simpa using hq),
          List.filter_cons_of_neg (by simpa using ha), List.cons_append]
        exact iht.cons a
      · rw [List.filter_cons_of_neg (by simpa using hq),
          List.filter_cons_of_neg (by simpa using hq),
          List.filter_cons_of_neg (by simpa using ha)]
        exact iht

theorem updateFirst_group_orders_b (l : List Bookmark) (p : Bookmark → Bool)
    (f : Bookmark → Bookmark)
    (hf : ∀ x, (f x).parentId = x.parentId ∧ (f x).order = x.order) (q : Option Nat) :
    ((updateFirst p f l).filter (fun x => decide (x.parentId = q))).map (fun x => x.order) =
      (l.filter (fun x => decide (x.parentId = q))).map (fun x => x.order) := by
  induction l with
  | nil => rfl
  | cons a tl ih =>
    unfold updateFirst
    by_cases hp : p a = true
    · rw [if_pos hp]
      obtain ⟨h1, h2⟩ := hf a
      by_cases hq : a.parentId = q
      · rw [List.filter_cons_of_pos (by simp [h1, hq]),
          List.filter_cons_of_pos (by simp [hq]), List.map_cons, List.map_cons, h2]
      · rw [List.filter_cons_of_neg (by simp [h1, hq]),
          List.filter_cons_of_neg (by simp [hq])]
    · rw [if_neg hp]
      by_cases hq : a.parentId = q
      · rw [List.filter_cons_of_pos (by simp [hq]),
          List.filter_cons_of_pos (by simp [hq]), List.map_cons, List.map_cons, ih]
      · rw [List.filter_cons_of_neg (by simp [hq]),
          List.filter_cons_of_neg (by simp [hq]), ih]

theorem updateFirst_group_orders_f (l : List BookmarkFolder) (p : BookmarkFolder → Bool)
    (f : BookmarkFolder → BookmarkFolder)
    (hf : ∀ x, (f x).parentId = x.parentId ∧ (f x).order = x.order) (q : Option Nat) :
    ((updateFirst p f l).filter (fun x => decide (x.parentId = q))).map (fun x => x.order) =
      (l.filter (fun x => decide (x.parentId = q))).map (fun x => x.order) := by
  induction l with
  | nil => rfl
  | cons a tl ih =>
    unfold updateFirst
    by_cases hp : p a = true
    · rw [if_pos hp]
      obtain ⟨h1, h2⟩ := hf a
      by_cases hq : a.parentId = q
      · rw [List.filter_cons_of_pos (by simp [h1, hq]),
          List.filter_cons_of_pos (by simp [hq]), List.map_cons, List.map_cons, h2]
      · rw [List.filter_cons_of_neg (by simp [h1, hq]),
          List.filter_cons_of_neg (by simp [hq])]
    · rw [if_neg hp]
      by_cases hq : a.parentId = q
      · rw [List.filter_cons_of_pos (by simp [hq]),
          List.filter_cons_of_pos (by simp [hq]), List.map_cons, List.map_cons, ih]
      · rw [List.filter_cons_of_neg (by simp [hq]),
          List.filter_cons_of_neg (by simp [hq]), ih]

theorem group_empty_of_not_key (s : BState) (p : Option Nat) (h : p ∉ parentKeys s) :
    groupOrders s p = [] := by
  rw [groupOrders_expand]
  have h1 : s.folders.filter (fun f => decide (f.parentId = p)) = [] := by
    rw [List.filter_eq_nil_iff]
    intro f hf
    simp only [decide_eq_true_eq]
    intro he
    exact h (by
      unfold parentKeys
      exact List.mem_append.mpr (Or.inl (by rw [← he]; exact List.mem_map_of_mem _ hf)))
  have h2 : s.bookmarks.filter (fun b => decide (b.parentId = p)) = [] := by
    rw [List.filter_eq_nil_iff]
    intro b hb
    simp only [decide_eq_true_eq]
    intro he
    exact h (by
      unfold parentKeys
      exact List.mem_append.mpr (Or.inr (by rw [← he]; exact List.mem_map_of_mem _ hb)))
  rw [h1, h2]
  rfl

theorem denseState_of_keys (s : BState)
    (h : ∀ p ∈ parentKeys s, DenseOrders (groupOrders s p)) : DenseState s := by
  intro p
  by_cases hp : p ∈ parentKeys s
  · exact h p hp
  · rw [group_empty_of_not_key s p hp]
    exact dense_nil

theorem allIds_normalize (s : BState) (p : Option Nat) :
    allIds (normalizeGroup s p) = allIds s := by
  have hf := congrArg (List.map Prod.fst) (normalizeGroup_folders_idpar s p)
  have hb := congrArg (List.map Prod.fst) (normalizeGroup_bookmarks_idpar s p)
  rw [List.map_map, List.map_map] at hf hb
  unfold allIds
  rw [show ((fun x : Nat × Option Nat => x.fst) ∘ fun f : BookmarkFolder => (f.id, f.parentId))
      = fun f : BookmarkFolder => f.id from rfl] at hf
  rw [show ((fun x : Nat × Option Nat => x.fst) ∘ fun b : Bookmark => (b.id, b.parentId))
      = fun b : Bookmark => b.id from rfl] at hb
  rw [hf, hb]

theorem groupOrders_bappend (s : BState) (nb : Bookmark) (p : Option Nat) :
    groupOrders { s with bookmarks := s.bookmarks ++ [nb] } p =
      (if nb.parentId = p then groupOrders s p ++ [nb.order] else groupOrders s p) := by
  rw [groupOrders_expand, groupOrders_expand]
  dsimp only
  rw [List.filter_append]
  by_cases hq : nb.parentId = p
  · rw [if_pos hq, List.filter_cons_of_pos (by simpa using hq), List.filter_nil,
      List.map_append, ← List.append_assoc]
    rfl
  · rw [if_neg hq, List.filter_cons_of_neg (by simpa using hq), List.filter_nil,
      List.append_nil]

theorem groupOrders_fappend (s : BState) (nf : BookmarkFolder) (p : Option Nat) :
    (groupOrders { s with folders := s.folders ++ [nf] } p).Perm
      (if nf.parentId = p then groupOrders s p ++ [nf.order] else groupOrders s p) := by
  rw [groupOrders_expand, groupOrders_expand]
  dsimp only
  rw [List.filter_append]
  by_cases hq : nf.parentId = p
  · rw [if_pos hq, List.filter_cons_of_pos (by simpa using hq), List.filter_nil,
      List.map_append, List.append_assoc, List.append_assoc]
    refine List.Perm.append_left _ ?_
    exact List.perm_append_comm
  · rw [if_neg hq, List.filter_cons_of_neg (by simpa using hq), List.filter_nil,
      List.append_nil]

theorem addBookmark_dense (s : BState) (hdense : DenseState s) (id uri : Nat) (line : Int)
    (text : String) : DenseState (addBookmark s id uri line text) := by
  intro p
  have hstep : addBookmark s id uri line text =
      { s with bookmarks := s.bookmarks ++
          [{ id := id, fileUri := uri, line := line, text := text.trim,
             order := newOrder (getFolderSiblings s none), parentId := none }] } := rfl
  rw [hstep, groupOrders_bappend]
  by_cases hp : (none : Option Nat) = p
  · rw [if_pos hp]
    subst hp
    have hlen := newOrder_group s none (hdense none)
    show DenseOrders (groupOrders s none ++ [newOrder (getFolderSiblings s none)])
    rw [hlen]
    exact dense_append_len (hdense none)
  · rw [if_neg hp]
    exact hdense p

theorem addFolder_dense (s : BState) (hdense : DenseState s) (id : Nat) (name : String)
    (q : Option Nat) : DenseState (addFolder s id name q) := by
  intro p
  have hstep : addFolder s id name q =
      { s with folders := s.folders ++
          [{ id := id, name := name.trim, order := newOrder (getFolderSiblings s q),
             parentId := q, isExpanded := true }] } := rfl
  rw [hstep]
  have hperm := groupOrders_fappend s
    { id := id, name := name.trim, order := newOrder (getFolderSiblings s q),
      parentId := q, isExpanded := true } p
  by_cases hp : q = p
  · rw [if_pos hp] at hperm
    subst hp
    apply dense_of_perm hperm
    have hlen := newOrder_group s q (hdense q)
    show DenseOrders (groupOrders s q ++ [newOrder (getFolderSiblings s q)])
    rw [hlen]
    exact dense_append_len (hdense q)
  · rw [if_neg hp] at hperm
    exact dense_of_perm hperm (hdense p)

theorem editBookmark_dense (s : BState) (hdense : DenseState s) (id : Nat) (text : String) :
    DenseState (editBookmark s id text) := by
  intro p
  have h : groupOrders (editBookmark s id text) p = groupOrders s p := by
    rw [groupOrders_expand, groupOrders_expand]
    unfold editBookmark
    dsimp only
    rw [updateFirst_group_orders_b s.bookmarks (fun b => decide (b.id = id))
      (fun b => { b with text := text.trim }) (fun x => ⟨rfl, rfl⟩) p]
  rw [h]
  exact hdense p

theorem editFolder_dense (s : BState) (hdense : DenseState s) (id : Nat) (name : String) :
    DenseState (editFolder s id name) := by
  intro p
  have h : groupOrders (editFolder s id name) p = groupOrders s p := by
    rw [groupOrders_expand, groupOrders_expand]
    unfold editFolder
    dsimp only
    rw [updateFirst_group_orders_f s.folders (fun f => decide (f.id = id))
      (fun f => { f with name := name.trim }) (fun x => ⟨rfl, rfl⟩) p]
  rw [h]
  exact hdense p

theorem deleteBookmark_dense (s : BState) (hdense : DenseState s)
    (hnd : (allIds s).Nodup) (id : Nat) : DenseState (deleteBookmark s id) := by
  cases hfind : s.bookmarks.find? (fun b => decide (b.id = id)) with
  | none =>
    have h : deleteBookmark s id = s := by unfold deleteBookmark; rw [hfind]
    rw [h]
    exact hdense
  | some b =>
    obtain ⟨_, hbnd, _⟩ := allIds_parts s hnd
    have hbmem : b ∈ s.bookmarks := List.mem_of_find?_eq_some hfind
    have hbid : b.id = id := by simpa using List.find?_some hfind
    have hdel : deleteBookmark s id =
        normalizeGroup
          { s with bookmarks := s.bookmarks.filter (fun x => decide (x.id ≠ id)) }
          b.parentId := by
      unfold deleteBookmark
      rw [hfind]
    have hnd1 : (allIds { s with
        bookmarks := s.bookmarks.filter (fun x => decide (x.id ≠ id)) }).Nodup := by
      apply List.Nodup.sublist _ hnd
      unfold allIds
      dsimp only
      exact List.Sublist.append (List.Sublist.refl _)
        ((List.filter_sublist s.bookmarks).map _)
    rw [hdel]
    intro p
    by_cases hp : p = b.parentId
    · subst hp
      exact normalizeGroup_dense _ b.parentId (groupIds_nodup _ b.parentId hnd1)
    · have h1 : groupOrders (normalizeGroup
          { s with bookmarks := s.bookmarks.filter (fun x => decide (x.id ≠ id)) }
          b.parentId) p =
          groupOrders
            { s with bookmarks := s.bookmarks.filter (fun x => decide (x.id ≠ id)) } p :=
        congrArg (List.map Entry.eorder) (normalizeGroup_siblings_ne _ b.parentId p hp)
      have h2 : groupOrders
          { s with bookmarks := s.bookmarks.filter (fun x => decide (x.id ≠ id)) } p =
          groupOrders s p := by
        rw [groupOrders_expand, groupOrders_expand]
        dsimp only
        congr 1
        refine congrArg (List.map _) ?_
        apply filter_filter_of_imp
        intro x hx hxp
        simp only [decide_eq_true_eq] at hxp ⊢
        intro he
        have hxb : x = b := mem_id_unique (fun y => y.id) hbnd hx hbmem
          (by show x.id = b.id; rw [he, hbid])
        exact hp (by rw [← hxp, hxb])
      rw [h1, h2]
      exact hdense p

theorem groupOrders_normalize_ne (s : BState) (p q : Option Nat) (h : q ≠ p) :
    groupOrders (normalizeGroup s p) q = groupOrders s q :=
  congrArg (List.map Entry.eorder) (normalizeGroup_siblings_ne s p q h)

theorem deleteFolder_group_sub (s : BState) (rank : Nat → Nat)
    (hrank : FRanked s.folders rank) (hfnd : (s.folders.map (fun f => f.id)).Nodup)
    (id q : Nat) (hq : isDescendantOf s q id = true) :
    groupOrders
      { bookmarks := s.bookmarks.filter (fun b => !(bookmarkRemoved s id b)),
        folders := s.folders.filter (fun f => !(folderRemoved s id f)) } (some q) = [] := by
  have hbridge : ∀ x z : Nat, isDescendantOf s x z = true ↔ FReaches s.folders x z :=
    fun x z => chainHits_iff_reaches (fun f : BookmarkFolder => f.id)
      (fun f => f.parentId) hrank x z
  rw [groupOrders_expand]
  dsimp only
  have hf : (s.folders.filter (fun f => !(folderRemoved s id f))).filter
      (fun f => decide (f.parentId = some q)) = [] := by
    rw [List.filter_eq_nil_iff]
    intro f hfmem
    have hf1 : f ∈ s.folders := List.mem_of_mem_filter hfmem
    have hf2 : folderRemoved s id f = false := by
      have h0 := List.of_mem_filter hfmem
      simp only [Bool.not_eq_true'] at h0
      exact h0
    simp only [decide_eq_true_eq]
    intro he
    have hpar : parentOf (fun g : BookmarkFolder => g.id) (fun g => g.parentId)
        s.folders f.id = some q := by
      unfold parentOf
      rw [findNode_unique (fun g : BookmarkFolder => g.id) hfnd hf1 rfl]
      exact he
    have hreach : FReaches s.folders f.id id :=
      reaches_trans (fun g : BookmarkFolder => g.id) (fun g => g.parentId)
        (reaches_of_parent (fun g : BookmarkFolder => g.id) (fun g => g.parentId) hpar)
        ((hbridge q id).mp hq)
    have hrem : folderRemoved s id f = true := by
      unfold folderRemoved
      exact (hbridge f.id id).mpr hreach
    rw [hrem] at hf2
    exact Bool.noConfusion hf2
  have hb : (s.bookmarks.filter (fun b => !(bookmarkRemoved s id b))).filter
      (fun b => decide (b.parentId = some q)) = [] := by
    rw [List.filter_eq_nil_iff]
    intro b hbmem
    have hb2 : bookmarkRemoved s id b = false := by
      have h0 := List.of_mem_filter hbmem
      simp only [Bool.not_eq_true'] at h0
      exact h0
    simp only [decide_eq_true_eq]
    intro he
    have hrem : bookmarkRemoved s id b = true := by
      unfold bookmarkRemoved
      rw [he]
      exact hq
    rw [hrem] at hb2
    exact Bool.noConfusion hb2
  rw [hf, hb]
  rfl

theorem deleteFolder_group_keep (s : BState) (rank : Nat → Nat)
    (hrank : FRanked s.folders rank) (hfnd : (s.folders.map (fun f => f.id)).Nodup)
    (F : BookmarkFolder) (hFmem : F ∈ s.folders) (id : Nat) (hFid : F.id = id)
    (p : Option Nat) (hp : p ≠ F.parentId)
    (hnotsub : ∀ q : Nat, p = some q → isDescendantOf s q id = false) :
    groupOrders
      { bookmarks := s.bookmarks.filter (fun b => !(bookmarkRemoved s id b)),
        folders := s.folders.filter (fun f => !(folderRemoved s id f)) } p =
      groupOrders s p := by
  have hbridge : ∀ x z : Nat, isDescendantOf s x z = true ↔ FReaches s.folders x z :=
    fun x z => chainHits_iff_reaches (fun f : BookmarkFolder => f.id)
      (fun f => f.parentId) hrank x z
  rw [groupOrders_expand, groupOrders_expand]
  dsimp only
  congr 1
  · refine congrArg (List.map _) ?_
    apply filter_filter_of_imp
    intro x hx hxp
    simp only [decide_eq_true_eq] at hxp
    cases hrem : folderRemoved s id x with
    | false => rfl
    | true =>
      exfalso
      have hreach : FReaches s.folders x.id id := by
        apply (hbridge x.id id).mp
        unfold folderRemoved at hrem
        exact hrem
      by_cases hxid : x.id = id
      · have hxF : x = F := mem_id_unique (fun g => g.id) hfnd hx hFmem
          (by show x.id = F.id; rw [hxid, hFid])
        exact hp (by rw [← hxp, hxF])
      · obtain ⟨y, hy, hrest⟩ := reaches_det (fun g : BookmarkFolder => g.id)
          (fun g => g.parentId) hreach hxid
        have hpar : parentOf (fun g : BookmarkFolder => g.id) (fun g => g.parentId)
            s.folders x.id = x.parentId := by
          unfold parentOf
          rw [findNode_unique (fun g : BookmarkFolder => g.id) hfnd hx rfl]
          rfl
        rw [hpar, hxp] at hy
        cases p with
        | none => exact Option.noConfusion hy
        | some q =>
          injection hy with hyq
          have hqreach : FReaches s.folders q id := by rw [hyq]; exact hrest
          have hdesc : isDescendantOf s q id = true := (hbridge q id).mpr hqreach
          rw [hnotsub q rfl] at hdesc
          exact Bool.noConfusion hdesc
  · refine congrArg (List.map _) ?_
    apply filter_filter_of_imp
    intro x hx hxp
    simp only [decide_eq_true_eq] at hxp
    have hrem : bookmarkRemoved s id x = false := by
      unfold bookmarkRemoved
      rw [hxp]
      cases p with
      | none => rfl
      | some q => exact hnotsub q rfl
    show (!(bookmarkRemoved s id x)) = true
    rw [hrem]
    rfl

theorem deleteFolder_dense (s : BState) (rank : Nat → Nat) (hrank : FRanked s.folders rank)
    (hdense : DenseState s) (hnd : (allIds s).Nodup) (id : Nat) :
    DenseState (deleteFolder s id) := by
  cases hfind : s.folders.find? (fun f => decide (f.id = id)) with
  | none =>
    have h : deleteFolder s id = s := by unfold deleteFolder; rw [hfind]
    rw [h]
    exact hdense
  | some F =>
    obtain ⟨hfnd, hbnd, _⟩ := allIds_parts s hnd
    have hFmem : F ∈ s.folders := List.mem_of_find?_eq_some hfind
    have hFid : F.id = id := by simpa using List.find?_some hfind
    have hdfr := dfr_spec s rank hrank hfnd (s.folders.length + 1) id s
      (fun f hf => hf) hfnd (fun g hg _ => hg) (by omega) (by omega)
    have hdel : deleteFolder s id =
        normalizeGroup
          { bookmarks := s.bookmarks.filter (fun b => !(bookmarkRemoved s id b)),
            folders := s.folders.filter (fun f => !(folderRemoved s id f)) }
          F.parentId := by
      unfold deleteFolder
      rw [hfind, hdfr]
    have hnd1 : (allIds
        { bookmarks := s.bookmarks.filter (fun b => !(bookmarkRemoved s id b)),
          folders := s.folders.filter (fun f => !(folderRemoved s id f)) : BState }).Nodup := by
      apply List.Nodup.sublist _ hnd
      unfold allIds
      dsimp only
      exact List.Sublist.append ((List.filter_sublist s.folders).map _)
        ((List.filter_sublist s.bookmarks).map _)
    rw [hdel]
    intro p
    by_cases hp : p = F.parentId
    · subst hp
      exact normalizeGroup_dense _ F.parentId (groupIds_nodup _ F.parentId hnd1)
    · rw [groupOrders_normalize_ne _ F.parentId p hp]
      cases p with
      | none =>
        rw [deleteFolder_group_keep s rank hrank hfnd F hFmem id hFid none hp
          (fun q hq => Option.noConfusion hq)]
        exact hdense none
      | some q =>
        by_cases hq : isDescendantOf s q id = true
        · rw [deleteFolder_group_sub s rank hrank hfnd id q hq]
          exact dense_nil
        · rw [deleteFolder_group_keep s rank hrank hfnd F hFmem id hFid (some q) hp
            (fun q2 hq2 => by
              injection hq2 with hq2e
              rw [← hq2e]
              exact Bool.eq_false_iff.mpr hq)]
          exact hdense (some q)

theorem moveCoreB_dense (s : BState) (hdense : DenseState s) (hnd : (allIds s).Nodup)
    (id : Nat) (b : Bookmark) (hbmem : b ∈ s.bookmarks) (hbid : b.id = id)
    (target : Option Nat) (hne : b.parentId ≠ target) :
    DenseState (moveEntryCore s true id b.parentId target) := by
  obtain ⟨_, hbnd, _⟩ := allIds_parts s hnd
  have hstep : moveEntryCore s true id b.parentId target =
      (if b.parentId ≠ target then
        normalizeGroup
          { s with bookmarks := (updateFirst (fun x => decide (x.id = id))
              (fun x => { x with parentId := target, order := newOrder (getFolderSiblings s target) }) s.bookmarks) }
          b.parentId
      else
        { s with bookmarks := (updateFirst (fun x => decide (x.id = id))
            (fun x => { x with parentId := target, order := newOrder (getFolderSiblings s target) }) s.bookmarks) }) := rfl
  rw [hstep, if_pos hne]
  have hmap := updateFirst_bookmarks_eq_map s.bookmarks hbnd id
    (fun x => { x with parentId := target, order := newOrder (getFolderSiblings s target) })
  rw [hmap]
  have hids : ((s.bookmarks.map (fun x => if x.id = id then
      { x with parentId := target, order := newOrder (getFolderSiblings s target) }
      else x)).map (fun x => x.id)) = s.bookmarks.map (fun x => x.id) := by
    rw [List.map_map]
    apply List.map_congr_left
    intro x _
    simp only [Function.comp]
    by_cases hx : x.id = id
    · rw [if_pos hx]
    · rw [if_neg hx]
  have hnd1 : (allIds { s with bookmarks := s.bookmarks.map (fun x => if x.id = id then
      { x with parentId := target, order := newOrder (getFolderSiblings s target) }
      else x) }).Nodup := by
    have h0 := hnd
    unfold allIds at h0 ⊢
    dsimp only
    rw [hids]
    exact h0
  intro p
  by_cases hp : p = b.parentId
  · subst hp
    exact normalizeGroup_dense _ b.parentId (groupIds_nodup _ b.parentId hnd1)
  · rw [groupOrders_normalize_ne _ b.parentId p hp]
    by_cases hpt : p = target
    · rw [hpt]
      have hpermb := group_map_if_target_b s.bookmarks id
        (fun x => { x with parentId := target, order := newOrder (getFolderSiblings s target) })
        target
        (by
          intro x hx hxid
          have hxb : x = b := mem_id_unique (fun y => y.id) hbnd hx hbmem
            (by show x.id = b.id; rw [hxid, hbid])
          subst hxb
          exact ⟨hne, rfl⟩)
      rw [filter_bid_singleton hbnd hbmem hbid] at hpermb
      have hfo : (((s.bookmarks.map (fun x => if x.id = id then
          { x with parentId := target, order := newOrder (getFolderSiblings s target) }
          else x)).filter (fun x => decide (x.parentId = target))).map
            (fun x => x.order)).Perm
          (((s.bookmarks.filter (fun x => decide (x.parentId = target))).map
            (fun x => x.order)) ++ [newOrder (getFolderSiblings s target)]) := by
        have h3 := hpermb.map (fun x : Bookmark => x.order)
        rw [List.map_append] at h3
        exact h3
      have hG : (groupOrders { s with bookmarks := s.bookmarks.map (fun x => if x.id = id then
          { x with parentId := target, order := newOrder (getFolderSiblings s target) }
          else x) } target).Perm
          (groupOrders s target ++ [newOrder (getFolderSiblings s target)]) := by
        rw [groupOrders_expand, groupOrders_expand]
        dsimp only
        rw [List.append_assoc]
        exact List.Perm.append_left _ hfo
      refine dense_of_perm hG ?_
      rw [newOrder_group s target (hdense target)]
      exact dense_append_len (hdense target)
    · have h2 : groupOrders { s with bookmarks := s.bookmarks.map (fun x => if x.id = id then
          { x with parentId := target, order := newOrder (getFolderSiblings s target) }
          else x) } p = groupOrders s p := by
        rw [groupOrders_expand, groupOrders_expand]
        dsimp only
        congr 1
        refine congrArg (List.map _) ?_
        apply group_map_if_other_b
        intro x hx hxid
        have hxb : x = b := mem_id_unique (fun y => y.id) hbnd hx hbmem
          (by show x.id = b.id; rw [hxid, hbid])
        subst hxb
        exact ⟨fun he => hp he.symm, fun he => hpt he.symm⟩
      rw [h2]
      exact hdense p

theorem moveCoreF_dense (s : BState) (hdense : DenseState s) (hnd : (allIds s).Nodup)
    (id : Nat) (f : BookmarkFolder) (hfmem : f ∈ s.folders) (hfid : f.id = id)
    (target : Option Nat) (hne : f.parentId ≠ target) :
    DenseState (moveEntryCore s false id f.parentId target) := by
  obtain ⟨hfnd, _, _⟩ := allIds_parts s hnd
  have hstep : moveEntryCore s false id f.parentId target =
      (if f.parentId ≠ target then
        normalizeGroup
          { s with folders := (updateFirst (fun x => decide (x.id = id))
              (fun x => { x with parentId := target, order := newOrder (getFolderSiblings s target) }) s.folders) }
          f.parentId
      else
        { s with folders := (updateFirst (fun x => decide (x.id = id))
            (fun x => { x with parentId := target, order := newOrder (getFolderSiblings s target) }) s.folders) }) := rfl
  rw [hstep, if_pos hne]
  have hmap := updateFirst_folders_eq_map s.folders hfnd id
    (fun x => { x with parentId := target, order := newOrder (getFolderSiblings s target) })
  rw [hmap]
  have hids : ((s.folders.map (fun x => if x.id = id then
      { x with parentId := target, order := newOrder (getFolderSiblings s target) }
      else x)).map (fun x => x.id)) = s.folders.map (fun x => x.id) := by
    rw [List.map_map]
    apply List.map_congr_left
    intro x _
    simp only [Function.comp]
    by_cases hx : x.id = id
    · rw [if_pos hx]
    · rw [if_neg hx]
  have hnd1 : (allIds { s with folders := s.folders.map (fun x => if x.id = id then
      { x with parentId := target, order := newOrder (getFolderSiblings s target) }
      else x) }).Nodup := by
    have h0 := hnd
    unfold allIds at h0 ⊢
    dsimp only
    rw [hids]
    exact h0
  intro p
  by_cases hp : p = f.parentId
  · subst hp
    exact normalizeGroup_dense _ f.parentId (groupIds_nodup _ f.parentId hnd1)
  · rw [groupOrders_normalize_ne _ f.parentId p hp]
    by_cases hpt : p = target
    · rw [hpt]
      have hpermf := group_map_if_target_f s.folders id
        (fun x => { x with parentId := target, order := newOrder (getFolderSiblings s target) })
        target
        (by
          intro x hx hxid
          have hxf : x = f := mem_id_unique (fun y => y.id) hfnd hx hfmem
            (by show x.id = f.id; rw [hxid, hfid])
          subst hxf
          exact ⟨hne, rfl⟩)
      rw [filter_fid_singleton hfnd hfmem hfid] at hpermf
      have hfo : (((s.folders.map (fun x => if x.id = id then
          { x with parentId := target, order := newOrder (getFolderSiblings s target) }
          else x)).filter (fun x => decide (x.parentId = target))).map
            (fun x => x.order)).Perm
          (((s.folders.filter (fun x => decide (x.parentId = target))).map
            (fun x => x.order)) ++ [newOrder (getFolderSiblings s target)]) := by
        have h3 := hpermf.map (fun x : BookmarkFolder => x.order)
        rw [List.map_append] at h3
        exact h3
      have hG : (groupOrders { s with folders := s.folders.map (fun x => if x.id = id then
          { x with parentId := target, order := newOrder (getFolderSiblings s target) }
          else x) } target).Perm
          (groupOrders s target ++ [newOrder (getFolderSiblings s target)]) := by
        rw [groupOrders_expand, groupOrders_expand]
        dsimp only
        refine List.Perm.trans (hfo.append_right _) ?_
        rw [List.append_assoc, List.append_assoc]
        exact List.Perm.append_left _ List.perm_append_comm
      refine dense_of_perm hG ?_
      rw [newOrder_group s target (hdense target)]
      exact dense_append_len (hdense target)
    · have h2 : groupOrders { s with folders := s.folders.map (fun x => if x.id = id then
          { x with parentId := target, order := newOrder (getFolderSiblings s target) }
          else x) } p = groupOrders s p := by
        rw [groupOrders_expand, groupOrders_expand]
        dsimp only
        congr 1
        refine congrArg (List.map _) ?_
        apply group_map_if_other_f
        intro x hx hxid
        have hxf : x = f := mem_id_unique (fun y => y.id) hfnd hx hfmem
          (by show x.id = f.id; rw [hxid, hfid])
        subst hxf
        exact ⟨fun he => hp he.symm, fun he => hpt he.symm⟩
      rw [h2]
      exact hdense p

theorem moveToFolder_dense (s : BState) (hdense : DenseState s) (hnd : (allIds s).Nodup)
    (id : Nat) (target : Option Nat)
    (hb : ∀ b ∈ s.bookmarks, b.id = id → b.parentId ≠ target)
    (hf : ∀ f ∈ s.folders, f.id = id → f.parentId ≠ target) :
    DenseState ((moveToFolder s id target).2) := by
  cases hbf : s.bookmarks.find? (fun x => decide (x.id = id)) with
  | some b =>
    have hbmem := List.mem_of_find?_eq_some hbf
    have hbid : b.id = id := by simpa using List.find?_some hbf
    have h : moveToFolder s id target = (none, moveEntryCore s true id b.parentId target) := by
      unfold moveToFolder
      rw [hbf]
    rw [h]
    exact moveCoreB_dense s hdense hnd id b hbmem hbid target (hb b hbmem hbid)
  | none =>
    cases hff : s.folders.find? (fun x => decide (x.id = id)) with
    | none =>
      have h : moveToFolder s id target = (none, s) := by
        unfold moveToFolder
        rw [hbf, hff]
      rw [h]
      exact hdense
    | some f =>
      have hfmem := List.mem_of_find?_eq_some hff
      have hfid : f.id = id := by simpa using List.find?_some hff
      have hne := hf f hfmem hfid
      cases target with
      | none =>
        have h : moveToFolder s id none = (none, moveEntryCore s false id f.parentId none) := by
          unfold moveToFolder
          rw [hbf, hff]
        rw [h]
        exact moveCoreF_dense s hdense hnd id f hfmem hfid none hne
      | some t =>
        have h : moveToFolder s id (some t) =
            (if isDescendantOf s t id then (some cycleMsg, s)
             else if getFolderDepth s t + getMaxFolderDepth s id > 3 then (some depthMsg, s)
             else (none, moveEntryCore s false id f.parentId (some t))) := by
          unfold moveToFolder
          rw [hbf, hff]
        rw [h]
        by_cases h1 : isDescendantOf s t id = true
        · rw [if_pos h1]
          exact hdense
        · rw [if_neg h1]
          by_cases h2 : getFolderDepth s t + getMaxFolderDepth s id > 3
          · rw [if_pos h2]
            exact hdense
          · rw [if_neg h2]
            exact moveCoreF_dense s hdense hnd id f hfmem hfid (some t) hne

theorem if_bool_false {α : Type} (t e : α) : (if false = true then t else e) = e := rfl

theorem if_bool_true {α : Type} (t e : α) : (if true = true then t else e) = t := rfl

theorem spliceAt_perm {α : Type} (n : Nat) (x : α) (l : List α) :
    (spliceAt n x l).Perm (x :: l) := by
  induction l generalizing n with
  | nil =>
    simp only [spliceAt]
    exact List.Perm.refl _
  | cons y ys ih =>
    cases n with
    | zero =>
      simp only [spliceAt]
      exact List.Perm.refl _
    | succ m =>
      simp only [spliceAt]
      exact ((ih m).cons y).trans (List.Perm.swap x y ys)

theorem assignOrders_par (l : List Entry) :
    ∀ i, (assignOrdersGo i l).map entryPar = l.map entryPar := by
  induction l with
  | nil => intro i; rfl
  | cons e es ih =>
    intro i
    cases e with
    | inl f =>
      show entryPar (Sum.inl { f with order := i }) :: (assignOrdersGo (i + 1) es).map entryPar
        = entryPar (Sum.inl f) :: es.map entryPar
      rw [ih (i + 1)]
      rfl
    | inr b =>
      show entryPar (Sum.inr { b with order := i }) :: (assignOrdersGo (i + 1) es).map entryPar
        = entryPar (Sum.inr b) :: es.map entryPar
      rw [ih (i + 1)]
      rfl

theorem assignOrders_orders (l : List Entry) :
    ∀ i, (assignOrdersGo i l).map Entry.eorder = List.range' i l.length := by
  induction l with
  | nil => intro i; rfl
  | cons e es ih =>
    intro i
    cases e with
    | inl f =>
      show Entry.eorder (Sum.inl { f with order := i }) ::
          (assignOrdersGo (i + 1) es).map Entry.eorder = List.range' i (es.length + 1)
      rw [ih (i + 1), List.range'_succ]
      rfl
    | inr b =>
      show Entry.eorder (Sum.inr { b with order := i }) ::
          (assignOrdersGo (i + 1) es).map Entry.eorder = List.range' i (es.length + 1)
      rw [ih (i + 1), List.range'_succ]
      rfl

theorem sum_split_orders (l : List Entry) :
    (((l.filterMap (fun e => match e with | Sum.inl f => some f | _ => none)).map
        (fun f => f.order)) ++
      ((l.filterMap (fun e => match e with | Sum.inr b => some b | _ => none)).map
        (fun b => b.order))).Perm (l.map Entry.eorder) := by
  induction l with
  | nil => exact List.Perm.refl _
  | cons e es ih =>
    cases e with
    | inl f =>
      show (f.order :: ((es.filterMap _).map _) ++ (es.filterMap _).map _).Perm
        (Entry.eorder (Sum.inl f) :: es.map Entry.eorder)
      exact ih.cons f.order
    | inr b =>
      show (((es.filterMap _).map _) ++ b.order :: (es.filterMap _).map _).Perm
        (Entry.eorder (Sum.inr b) :: es.map Entry.eorder)
      exact List.perm_middle.trans (ih.cons b.order)

theorem siblings_par (s : BState) (p : Option Nat) :
    ∀ e ∈ getFolderSiblings s p, entryPar e = p := by
  intro e he
  unfold getFolderSiblings at he
  rcases List.mem_append.mp he with h | h
  · rcases List.mem_map.mp h with ⟨f, hf, rfl⟩
    have h2 := List.of_mem_filter hf
    simp only [decide_eq_true_eq] at h2
    exact h2
  · rcases List.mem_map.mp h with ⟨b, hb, rfl⟩
    have h2 := List.of_mem_filter hb
    simp only [decide_eq_true_eq] at h2
    exact h2

theorem mem_filterMap_inl {l : List Entry} {f : BookmarkFolder}
    (h : f ∈ l.filterMap (fun e => match e with | Sum.inl g => some g | _ => none)) :
    Sum.inl f ∈ l := by
  rcases List.mem_filterMap.mp h with ⟨e, he, hef⟩
  cases e with
  | inl g =>
    injection hef with hgf
    rw [← hgf]
    exact he
  | inr b => exact Option.noConfusion hef

theorem mem_filterMap_inr {l : List Entry} {b : Bookmark}
    (h : b ∈ l.filterMap (fun e => match e with | Sum.inr x => some x | _ => none)) :
    Sum.inr b ∈ l := by
  rcases List.mem_filterMap.mp h with ⟨e, he, heb⟩
  cases e with
  | inl g => exact Option.noConfusion heb
  | inr x =>
    injection heb with hxb
    rw [← hxb]
    exact he

theorem filterB_ne_nil (l : List Bookmark) (tp : Option Nat) :
    (l.filter (fun x => decide (x.parentId ≠ tp))).filter
      (fun x => decide (x.parentId = tp)) = [] := by
  rw [List.filter_eq_nil_iff]
  intro y hy
  have h1 := List.of_mem_filter hy
  simp only [decide_eq_true_eq] at h1 ⊢
  exact h1

theorem filterF_ne_nil (l : List BookmarkFolder) (tp : Option Nat) :
    (l.filter (fun x => decide (x.parentId ≠ tp))).filter
      (fun x => decide (x.parentId = tp)) = [] := by
  rw [List.filter_eq_nil_iff]
  intro y hy
  have h1 := List.of_mem_filter hy
  simp only [decide_eq_true_eq] at h1 ⊢
  exact h1

theorem filterB_ne_keep (l : List Bookmark) (tp q : Option Nat) (h : q ≠ tp) :
    (l.filter (fun x => decide (x.parentId ≠ tp))).filter
        (fun x => decide (x.parentId = q)) =
      l.filter (fun x => decide (x.parentId = q)) := by
  apply filter_filter_of_imp
  intro x hx hxq
  simp only [decide_eq_true_eq] at hxq ⊢
  rw [hxq]
  exact h

theorem filterF_ne_keep (l : List BookmarkFolder) (tp q : Option Nat) (h : q ≠ tp) :
    (l.filter (fun x => decide (x.parentId ≠ tp))).filter
        (fun x => decide (x.parentId = q)) =
      l.filter (fun x => decide (x.parentId = q)) := by
  apply filter_filter_of_imp
  intro x hx hxq
  simp only [decide_eq_true_eq] at hxq ⊢
  rw [hxq]
  exact h

theorem rebuilt_group_dense (A2 : List Entry) (tp : Option Nat)
    (hpar2 : ∀ e ∈ A2, entryPar e = tp)
    (hord : A2.map Entry.eorder = List.range A2.length)
    (firstB : List Bookmark) (firstF : List BookmarkFolder) :
    DenseOrders (groupOrders
      { bookmarks := firstB.filter (fun x => decide (x.parentId ≠ tp)) ++
          A2.filterMap (fun e => match e with | Sum.inr x => some x | _ => none),
        folders := firstF.filter (fun x => decide (x.parentId ≠ tp)) ++
          A2.filterMap (fun e => match e with | Sum.inl g => some g | _ => none) } tp) := by
  rw [groupOrders_expand]
  dsimp only
  rw [List.filter_append, List.filter_append, filterF_ne_nil, filterB_ne_nil,
    List.nil_append, List.nil_append]
  have hA2f : (A2.filterMap (fun e => match e with | Sum.inl g => some g | _ => none)).filter
      (fun x => decide (x.parentId = tp)) =
      A2.filterMap (fun e => match e with | Sum.inl g => some g | _ => none) := by
    rw [List.filter_eq_self]
    intro g hg
    simp only [decide_eq_true_eq]
    exact hpar2 (Sum.inl g) (mem_filterMap_inl hg)
  have hA2b : (A2.filterMap (fun e => match e with | Sum.inr x => some x | _ => none)).filter
      (fun x => decide (x.parentId = tp)) =
      A2.filterMap (fun e => match e with | Sum.inr x => some x | _ => none) := by
    rw [List.filter_eq_self]
    intro x hx
    simp only [decide_eq_true_eq]
    exact hpar2 (Sum.inr x) (mem_filterMap_inr hx)
  rw [hA2f, hA2b]
  have hperm := sum_split_orders A2
  rw [hord] at hperm
  unfold DenseOrders
  have hlen2 : (((A2.filterMap (fun e => match e with | Sum.inl g => some g | _ => none)).map
      (fun g => g.order)) ++
      ((A2.filterMap (fun e => match e with | Sum.inr x => some x | _ => none)).map
        (fun x => x.order))).length = A2.length := by
    rw [hperm.length_eq, List.length_range]
  rw [hlen2]
  exact hperm

theorem rebuilt_group_other (A2 : List Entry) (tp q : Option Nat) (hne : q ≠ tp)
    (hpar2 : ∀ e ∈ A2, entryPar e = tp)
    (firstB : List Bookmark) (firstF : List BookmarkFolder) :
    groupOrders
      { bookmarks := firstB.filter (fun x => decide (x.parentId ≠ tp)) ++
          A2.filterMap (fun e => match e with | Sum.inr x => some x | _ => none),
        folders := firstF.filter (fun x => decide (x.parentId ≠ tp)) ++
          A2.filterMap (fun e => match e with | Sum.inl g => some g | _ => none) } q =
      (firstF.filter (fun x => decide (x.parentId = q))).map (fun x => x.order) ++
        (firstB.filter (fun x => decide (x.parentId = q))).map (fun x => x.order) := by
  rw [groupOrders_expand]
  dsimp only
  rw [List.filter_append, List.filter_append]
  have h1 : (A2.filterMap (fun e => match e with | Sum.inl g => some g | _ => none)).filter
      (fun x => decide (x.parentId = q)) = [] := by
    rw [List.filter_eq_nil_iff]
    intro g hg
    simp only [decide_eq_true_eq]
    intro he
    exact hne (by rw [← he]; exact hpar2 (Sum.inl g) (mem_filterMap_inl hg))
  have h2 : (A2.filterMap (fun e => match e with | Sum.inr x => some x | _ => none)).filter
      (fun x => decide (x.parentId = q)) = [] := by
    rw [List.filter_eq_nil_iff]
    intro x hx
    simp only [decide_eq_true_eq]
    intro he
    exact hne (by rw [← he]; exact hpar2 (Sum.inr x) (mem_filterMap_inr hx))
  rw [h1, h2, filterF_ne_keep _ _ _ hne, filterB_ne_keep _ _ _ hne,
    List.append_nil, List.append_nil]

theorem reorder_tail_dense (s2 : BState) (tp : Option Nat) (dragged : Entry)
    (hpar : entryPar dragged = tp)
    (hq : ∀ q : Option Nat, q ≠ tp → DenseOrders (groupOrders s2 q)) (ii : Nat) :
    DenseState
      { bookmarks := (s2.bookmarks.filter (fun x => decide (x.parentId ≠ tp))) ++
          (assignOrdersGo 0 (spliceAt ii dragged
            (sortOrdered Entry.eorder (getFolderSiblings s2 tp)))).filterMap
            (fun e => match e with | Sum.inr x => some x | _ => none),
        folders := (s2.folders.filter (fun x => decide (x.parentId ≠ tp))) ++
          (assignOrdersGo 0 (spliceAt ii dragged
            (sortOrdered Entry.eorder (getFolderSiblings s2 tp)))).filterMap
            (fun e => match e with | Sum.inl g => some g | _ => none) } := by
  have hsplice : ∀ e ∈ spliceAt ii dragged
      (sortOrdered Entry.eorder (getFolderSiblings s2 tp)), entryPar e = tp := by
    intro e he
    have hmem := (spliceAt_perm ii dragged _).mem_iff.mp he
    rcases List.mem_cons.mp hmem with rfl | hmem2
    · exact hpar
    · exact siblings_par s2 tp e ((sortOrdered_perm Entry.eorder _).mem_iff.mp hmem2)
  have hA2par : ∀ e ∈ assignOrdersGo 0 (spliceAt ii dragged
      (sortOrdered Entry.eorder (getFolderSiblings s2 tp))), entryPar e = tp := by
    intro e he
    have h1 : entryPar e ∈ (assignOrdersGo 0 (spliceAt ii dragged
        (sortOrdered Entry.eorder (getFolderSiblings s2 tp)))).map entryPar :=
      List.mem_map_of_mem entryPar he
    rw [assignOrders_par] at h1
    rcases List.mem_map.mp h1 with ⟨e2, he2, hpe⟩
    rw [← hpe]
    exact hsplice e2 he2
  have hlen : (assignOrdersGo 0 (spliceAt ii dragged
      (sortOrdered Entry.eorder (getFolderSiblings s2 tp)))).length =
      (spliceAt ii dragged (sortOrdered Entry.eorder (getFolderSiblings s2 tp))).length := by
    have h0 := congrArg List.length (assignOrders_orders
      (spliceAt ii dragged (sortOrdered Entry.eorder (getFolderSiblings s2 tp))) 0)
    rwa [List.length_map, List.length_range'] at h0
  have hords : (assignOrdersGo 0 (spliceAt ii dragged
      (sortOrdered Entry.eorder (getFolderSiblings s2 tp)))).map Entry.eorder =
      List.range (assignOrdersGo 0 (spliceAt ii dragged
        (sortOrdered Entry.eorder (getFolderSiblings s2 tp)))).length := by
    rw [assignOrders_orders, hlen, List.range_eq_range']
  intro q
  by_cases hqt : q = tp
  · rw [hqt]
    exact rebuilt_group_dense _ tp hA2par hords s2.bookmarks s2.folders
  · rw [rebuilt_group_other _ tp q hqt hA2par s2.bookmarks s2.folders, ← groupOrders_expand]
    exact hq q hqt

theorem groupOrders_removeB (s : BState) (hbnd : (s.bookmarks.map (fun x => x.id)).Nodup)
    (b : Bookmark) (hbmem : b ∈ s.bookmarks) (d : Nat) (hbid : b.id = d)
    (q : Option Nat) (hq : q ≠ b.parentId) :
    groupOrders { s with bookmarks := s.bookmarks.filter (fun x => decide (x.id ≠ d)) } q =
      groupOrders s q := by
  rw [groupOrders_expand, groupOrders_expand]
  dsimp only
  congr 1
  refine congrArg (List.map _) ?_
  apply filter_filter_of_imp
  intro x hx hxq
  simp only [decide_eq_true_eq] at hxq ⊢
  intro he
  have hxb : x = b := mem_id_unique (fun y => y.id) hbnd hx hbmem
    (by show x.id = b.id; rw [he, hbid])
  exact hq (by rw [← hxq, hxb])

theorem groupOrders_removeF (s : BState) (hfnd : (s.folders.map (fun x => x.id)).Nodup)
    (f : BookmarkFolder) (hfmem : f ∈ s.folders) (d : Nat) (hfid : f.id = d)
    (q : Option Nat) (hq : q ≠ f.parentId) :
    groupOrders { s with folders := s.folders.filter (fun x => decide (x.id ≠ d)) } q =
      groupOrders s q := by
  rw [groupOrders_expand, groupOrders_expand]
  dsimp only
  congr 1
  refine congrArg (List.map _) ?_
  apply filter_filter_of_imp
  intro x hx hxq
  simp only [decide_eq_true_eq] at hxq ⊢
  intro he
  have hxf : x = f := mem_id_unique (fun y => y.id) hfnd hx hfmem
    (by show x.id = f.id; rw [he, hfid])
  exact hq (by rw [← hxq, hxf])

theorem reorder_final_dense_b (s : BState) (hdense : DenseState s) (hnd : (allIds s).Nodup)
    (d : Nat) (b : Bookmark) (hbmem : b ∈ s.bookmarks) (hbid : b.id = d)
    (tp : Option Nat) (ii : Nat) :
    DenseState
      { bookmarks :=
          ((if b.parentId ≠ tp then
              normalizeGroup
                { s with bookmarks := s.bookmarks.filter (fun x => decide (x.id ≠ d)) }
                b.parentId
            else
              { s with bookmarks :=
                  s.bookmarks.filter (fun x => decide (x.id ≠ d)) }).bookmarks.filter
            (fun x => decide (x.parentId ≠ tp))) ++
          (assignOrdersGo 0 (spliceAt ii (Sum.inr { b with parentId := tp })
            (sortOrdered Entry.eorder (getFolderSiblings
              (if b.parentId ≠ tp then
                normalizeGroup
                  { s with bookmarks := s.bookmarks.filter (fun x => decide (x.id ≠ d)) }
                  b.parentId
              else
                { s with bookmarks := s.bookmarks.filter (fun x => decide (x.id ≠ d)) })
              tp)))).filterMap (fun e => match e with | Sum.inr x => some x | _ => none),
        folders :=
          ((if b.parentId ≠ tp then
              normalizeGroup
                { s with bookmarks := s.bookmarks.filter (fun x => decide (x.id ≠ d)) }
                b.parentId
            else
              { s with bookmarks :=
                  s.bookmarks.filter (fun x => decide (x.id ≠ d)) }).folders.filter
            (fun x => decide (x.parentId ≠ tp))) ++
          (assignOrdersGo 0 (spliceAt ii (Sum.inr { b with parentId := tp })
            (sortOrdered Entry.eorder (getFolderSiblings
              (if b.parentId ≠ tp then
                normalizeGroup
                  { s with bookmarks := s.bookmarks.filter (fun x => decide (x.id ≠ d)) }
                  b.parentId
              else
                { s with bookmarks := s.bookmarks.filter (fun x => decide (x.id ≠ d)) })
              tp)))).filterMap (fun e => match e with | Sum.inl g => some g | _ => none) } := by
  obtain ⟨_, hbnd, _⟩ := allIds_parts s hnd
  have hnd1 : (allIds
      { s with bookmarks := s.bookmarks.filter (fun x => decide (x.id ≠ d)) }).Nodup := by
    apply List.Nodup.sublist _ hnd
    unfold allIds
    dsimp only
    exact List.Sublist.append (List.Sublist.refl _)
      ((List.filter_sublist s.bookmarks).map _)
  by_cases hsp : b.parentId ≠ tp
  · rw [if_pos hsp]
    apply reorder_tail_dense _ tp (Sum.inr { b with parentId := tp }) rfl ?_ ii
    intro q hqt
    by_cases hqs : q = b.parentId
    · rw [hqs]
      exact normalizeGroup_dense _ b.parentId (groupIds_nodup _ b.parentId hnd1)
    · rw [groupOrders_normalize_ne _ b.parentId q hqs,
        groupOrders_removeB s hbnd b hbmem d hbid q hqs]
      exact hdense q
  · rw [if_neg hsp]
    have hsp2 : b.parentId = tp := not_not.mp hsp
    apply reorder_tail_dense _ tp (Sum.inr { b with parentId := tp }) rfl ?_ ii
    intro q hqt
    rw [groupOrders_removeB s hbnd b hbmem d hbid q (by rw [hsp2]; exact hqt)]
    exact hdense q

theorem reorder_final_dense_f (s : BState) (hdense : DenseState s) (hnd : (allIds s).Nodup)
    (d : Nat) (f : BookmarkFolder) (hfmem : f ∈ s.folders) (hfid : f.id = d)
    (tp : Option Nat) (ii : Nat) :
    DenseState
      { bookmarks :=
          ((if f.parentId ≠ tp then
              normalizeGroup
                { s with folders := s.folders.filter (fun x => decide (x.id ≠ d)) }
                f.parentId
            else
              { s with folders :=
                  s.folders.filter (fun x => decide (x.id ≠ d)) }).bookmarks.filter
            (fun x => decide (x.parentId ≠ tp))) ++
          (assignOrdersGo 0 (spliceAt ii (Sum.inl { f with parentId := tp })
            (sortOrdered Entry.eorder (getFolderSiblings
              (if f.parentId ≠ tp then
                normalizeGroup
                  { s with folders := s.folders.filter (fun x => decide (x.id ≠ d)) }
                  f.parentId
              else
                { s with folders := s.folders.filter (fun x => decide (x.id ≠ d)) })
              tp)))).filterMap (fun e => match e with | Sum.inr x => some x | _ => none),
        folders :=
          ((if f.parentId ≠ tp then
              normalizeGroup
                { s with folders := s.folders.filter (fun x => decide (x.id ≠ d)) }
                f.parentId
            else
              { s with folders :=
                  s.folders.filter (fun x => decide (x.id ≠ d)) }).folders.filter
            (fun x => decide (x.parentId ≠ tp))) ++
          (assignOrdersGo 0 (spliceAt ii (Sum.inl { f with parentId := tp })
            (sortOrdered Entry.eorder (getFolderSiblings
              (if f.parentId ≠ tp then
                normalizeGroup
                  { s with folders := s.folders.filter (fun x => decide (x.id ≠ d)) }
                  f.parentId
              else
                { s with folders := s.folders.filter (fun x => decide (x.id ≠ d)) })
              tp)))).filterMap (fun e => match e with | Sum.inl g => some g | _ => none) } := by
  obtain ⟨hfnd, _, _⟩ := allIds_parts s hnd
  have hnd1 : (allIds
      { s with folders := s.folders.filter (fun x => decide (x.id ≠ d)) }).Nodup := by
    apply List.Nodup.sublist _ hnd
    unfold allIds
    dsimp only
    exact List.Sublist.append ((List.filter_sublist s.folders).map _) (List.Sublist.refl _)
  by_cases hsp : f.parentId ≠ tp
  · rw [if_pos hsp]
    apply reorder_tail_dense _ tp (Sum.inl { f with parentId := tp }) rfl ?_ ii
    intro q hqt
    by_cases hqs : q = f.parentId
    · rw [hqs]
      exact normalizeGroup_dense _ f.parentId (groupIds_nodup _ f.parentId hnd1)
    · rw [groupOrders_normalize_ne _ f.parentId q hqs,
        groupOrders_removeF s hfnd f hfmem d hfid q hqs]
      exact hdense q
  · rw [if_neg hsp]
    have hsp2 : f.parentId = tp := not_not.mp hsp
    apply reorder_tail_dense _ tp (Sum.inl { f with parentId := tp }) rfl ?_ ii
    intro q hqt
    rw [groupOrders_removeF s hfnd f hfmem d hfid q (by rw [hsp2]; exact hqt)]
    exact hdense q

theorem reorderItem_dense (s : BState) (hdense : DenseState s) (hnd : (allIds s).Nodup)
    (d t : Nat) (pos : DropPos) (hok : (reorderItem s d t pos).1 = none) :
    DenseState ((reorderItem s d t pos).2) := by
  unfold reorderItem at hok ⊢
  cases hdb : s.bookmarks.find? (fun x => decide (x.id = d)) with
  | some b =>
    have hbmem : b ∈ s.bookmarks := List.mem_of_find?_eq_some hdb
    have hbid : b.id = d := by simpa using List.find?_some hdb
    rw [hdb] at hok
    cases hdf : s.folders.find? (fun x => decide (x.id = d)) with
    | none =>
      rw [hdf] at hok
      simp only [Option.isNone_some, Option.isNone_none, Option.isSome_some,
        Option.isSome_none, Bool.false_and, Bool.true_and, Bool.and_false, Bool.and_true,
        Bool.and_self, if_bool_false, if_bool_true, eq_self_iff_true, if_true, if_false]
        at hok ⊢
      by_cases hT : ((s.bookmarks.find? (fun x => decide (x.id = t))).isNone &&
          (s.folders.find? (fun x => decide (x.id = t))).isNone) = true
      · rw [if_pos hT] at hok
        simp at hok
      · rw [if_neg hT] at hok ⊢
        split at hok
        · simp at hok
        · rename_i ti heq
          exact reorder_final_dense_b s hdense hnd d b hbmem hbid _ _
    | some f =>
      rw [hdf] at hok
      simp only [Option.isNone_some, Option.isNone_none, Option.isSome_some,
        Option.isSome_none, Bool.false_and, Bool.true_and, Bool.and_false, Bool.and_true,
        Bool.and_self, if_bool_false, if_bool_true, eq_self_iff_true, if_true, if_false]
        at hok ⊢
      by_cases hT : ((s.bookmarks.find? (fun x => decide (x.id = t))).isNone &&
          (s.folders.find? (fun x => decide (x.id = t))).isNone) = true
      · rw [if_pos hT] at hok
        simp at hok
      · rw [if_neg hT] at hok ⊢
        split at hok
        · simp at hok
        · split at hok
          · simp at hok
          · rename_i ti heq
            exact reorder_final_dense_b s hdense hnd d b hbmem hbid _ _
  | none =>
    rw [hdb] at hok
    cases hdf : s.folders.find? (fun x => decide (x.id = d)) with
    | none =>
      rw [hdf] at hok
      simp only [Option.isNone_none, Bool.and_self, if_bool_true, eq_self_iff_true,
        if_true, if_false] at hok
      simp at hok
    | some f =>
      have hfmem : f ∈ s.folders := List.mem_of_find?_eq_some hdf
      have hfid : f.id = d := by simpa using List.find?_some hdf
      rw [hdf] at hok
      simp only [Option.isNone_some, Option.isNone_none, Option.isSome_some,
        Option.isSome_none, Bool.false_and, Bool.true_and, Bool.and_false, Bool.and_true,
        Bool.and_self, if_bool_false, if_bool_true, eq_self_iff_true, if_true, if_false]
        at hok ⊢
      by_cases hT : ((s.bookmarks.find? (fun x => decide (x.id = t))).isNone &&
          (s.folders.find? (fun x => decide (x.id = t))).isNone) = true
      · rw [if_pos hT] at hok
        simp at hok
      · rw [if_neg hT] at hok ⊢
        split at hok
        · simp at hok
        · split at hok
          · simp at hok
          · rename_i ti heq
            exact reorder_final_dense_f s hdense hnd d f hfmem hfid _ _

/-- C1 (amended): on the bookmark store, starting from a state with pairwise
distinct ids, an acyclic (ranked) folder tree and every sibling group dense,
density of every sibling group is preserved by `addBookmark`, `addFolder`,
`editBookmark`, `editFolder`, `deleteBookmark`, `deleteFolder`, by
`moveToFolder` whenever the moved item's current parent differs from the
target, and by every `reorderItem` call that does not throw. -/
theorem claim1_amended (s : BState) (rank : Nat → Nat) (hdense : DenseState s)
    (hnd : (allIds s).Nodup) (hrank : FRanked s.folders rank) :
    (∀ id uri line text, DenseState (addBookmark s id uri line text)) ∧
    (∀ id name p, DenseState (addFolder s id name p)) ∧
    (∀ id text, DenseState (editBookmark s id text)) ∧
    (∀ id name, DenseState (editFolder s id name)) ∧
    (∀ id, DenseState (deleteBookmark s id)) ∧
    (∀ id, DenseState (deleteFolder s id)) ∧
    (∀ id target,
      (∀ b ∈ s.bookmarks, b.id = id → b.parentId ≠ target) →
      (∀ f ∈ s.folders, f.id = id → f.parentId ≠ target) →
      DenseState ((moveToFolder s id target).2)) ∧
    (∀ dId tId pos, (reorderItem s dId tId pos).1 = none →
      DenseState ((reorderItem s dId tId pos).2)) :=
  ⟨fun id uri line text => addBookmark_dense s hdense id uri line text,
   fun id name p => addFolder_dense s hdense id name p,
   fun id text => editBookmark_dense s hdense id text,
   fun id name => editFolder_dense s hdense id name,
   fun id => deleteBookmark_dense s hdense hnd id,
   fun id => deleteFolder_dense s rank hrank hdense hnd id,
   fun id target hb hf => moveToFolder_dense s hdense hnd id target hb hf,
   fun dId tId pos hok => reorderItem_dense s hdense hnd dId tId pos hok⟩

/-- Witness for the amended C1 at a concrete two-level dense store, with the
rank function witnessing acyclicity and all hypotheses decided. -/
theorem claim1_amended_witness :
    (∀ id uri line text, DenseState (addBookmark c1DenseState id uri line text)) ∧
    (∀ id name p, DenseState (addFolder c1DenseState id name p)) ∧
    (∀ id text, DenseState (editBookmark c1DenseState id text)) ∧
    (∀ id name, DenseState (editFolder c1DenseState id name)) ∧
    (∀ id, DenseState (deleteBookmark c1DenseState id)) ∧
    (∀ id, DenseState (deleteFolder c1DenseState id)) ∧
    (∀ id target,
      (∀ b ∈ c1DenseState.bookmarks, b.id = id → b.parentId ≠ target) →
      (∀ f ∈ c1DenseState.folders, f.id = id → f.parentId ≠ target) →
      DenseState ((moveToFolder c1DenseState id target).2)) ∧
    (∀ dId tId pos, (reorderItem c1DenseState dId tId pos).1 = none →
      DenseState ((reorderItem c1DenseState dId tId pos).2)) :=
  claim1_amended c1DenseState (fun x => x - 1)
    (denseState_of_keys c1DenseState (by decide)) (by decide) (by decide)

end VSC
